import Mathlib

/-!
# A shallow embedding of `nwctxt.py` (NWC clip text library)

This file models, in Lean, the NoteWorthy Composer clip-text library
`nwctxt.py`: the escape/unescape text transform, the per-line clip item
codec (`NWC2ClipItem.__init__` / `ReconstructClipText`), the note pitch
decoder (`NWC2NotePitchPos`) and the playback context state machine
(`NWC2PlayContext`).

Python strings are modelled as `List Char`.  Python dictionaries are
modelled as insertion-ordered association lists that faithfully represent
the dictionary *contents* (assignment replaces the value of an existing
key in place, otherwise appends); the incidental hash ordering of CPython 2
dict iteration is idealized as insertion order.  Operations that can raise
a Python exception (`KeyError`, `ValueError`, `IndexError`, `TypeError`)
return `Option`, with `none` marking the raise.
-/

namespace NwcTxt

/-- Shorthand turning a string literal into the `List Char` the model works on. -/
def cs (s : String) : List Char := s.data

/-- Characters removed by Python 2 `str.strip()` (`string.whitespace`). -/
def isPySpace (c : Char) : Bool :=
  c = ' ' || c = '\t' || c = '\n' || c = '\r' || c = '\x0b' || c = '\x0c'

/-- Python `str.lstrip()`. -/
def lstrip (s : List Char) : List Char := s.dropWhile isPySpace

/-- Python `str.rstrip()`. -/
def rstrip (s : List Char) : List Char := (s.reverse.dropWhile isPySpace).reverse

/-- Python `str.strip()`. -/
def strip (s : List Char) : List Char := lstrip (rstrip s)

/-- The characters `EscapeText` backslash-escapes: `' " CR LF TAB | \`. -/
def isEscChar (c : Char) : Bool :=
  c = '\'' || c = '"' || c = '\r' || c = '\n' || c = '\t' || c = '|' || c = '\\'

/-- The replacement character emitted after the backslash by `EscapeText`. -/
def escCode (c : Char) : Char :=
  if c = '\r' then 'r' else if c = '\n' then 'n' else if c = '\t' then 't' else c

/-- `EscapeText`: add backslashes in front of every occurrence of
`' " CR LF TAB | \`, writing CR LF TAB as `\r` `\n` `\t`. -/
def EscapeText : List Char → List Char
  | [] => []
  | c :: s => if isEscChar c then '\\' :: escCode c :: EscapeText s else c :: EscapeText s

/-- `replChar` inside the source's `UnescapeText`.  The pattern is `\\.`, so
`group(0)` — `newchar` — is the whole two-character match; its comparisons
with the one-character strings `r`, `n`, `t` can therefore never succeed,
and the result is always `newchar[1]`, the literal character after the
backslash (the CR/LF/TAB decode branches are dead code). -/
def unescReplChar (newchar : List Char) : List Char :=
  if newchar = ['r'] then ['\r']
  else if newchar = ['n'] then ['\n']
  else if newchar = ['t'] then ['\t']
  else newchar.drop 1

/-- `UnescapeText`: replace every match of the regex `\\.` by `unescReplChar`
of the two-character match.  `.` does not match a newline, so a backslash
followed by LF is passed through and scanning resumes at the LF. -/
def UnescapeText : List Char → List Char
  | [] => []
  | ['\\'] => ['\\']
  | '\\' :: c2 :: s2 =>
    if c2 = '\n' then '\\' :: UnescapeText (c2 :: s2)
    else unescReplChar ['\\', c2] ++ UnescapeText s2
  | c :: s => c :: UnescapeText s

/-- Prepend a character to the first field of a split result. -/
def consHead (c : Char) : List (List Char) → List (List Char)
  | [] => [[c]]
  | f :: fs => (c :: f) :: fs

/-- Worker for `re.split` on a single character not preceded by a backslash.
`prev` is the character just before the current position (`none` at the very
start); after a split the previous character is the consumed delimiter,
which is never a backslash, recorded as the neutral `some ' '`. -/
def splitUnescAux (p : Char) : Option Char → List Char → List (List Char)
  | _, [] => [[]]
  | prev, c :: rest =>
    if c = p ∧ prev ≠ some '\\' then [] :: splitUnescAux p (some ' ') rest
    else consHead c (splitUnescAux p (some c) rest)

/-- `re.split(r"(?<!\\)X", s)`: split on every occurrence of `X` whose
preceding character is not a backslash. -/
def splitUnescaped (p : Char) (s : List Char) : List (List Char) := splitUnescAux p none s

/-- `re.split(r"(?<!\\)\,\s*", s)`: split on unescaped commas; the `\s*`
additionally eats the whitespace after each consumed comma, i.e. the leading
whitespace of every field after the first. -/
def splitCommaWS (s : List Char) : List (List Char) :=
  match splitUnescaped ',' s with
  | [] => []
  | f :: fs => f :: fs.map lstrip

/-- A character allowed in an option tag: the regex class `[0-9A-Za-z\-_]`. -/
def isTagChar (c : Char) : Bool := c.isAlphanum || c = '-' || c = '_'

/-- `re.match(R"^([0-9A-Za-z\-_]+):(.*)", v)`: a nonempty run of tag
characters followed by a colon.  The value group `(.*)` stops at the first
newline (the rest of the field is dropped by the match, as in Python). -/
def tagMatch (s : List Char) : Option (List Char × List Char) :=
  match s.takeWhile isTagChar, s.dropWhile isTagChar with
  | _ :: _, ':' :: r => some (s.takeWhile isTagChar, r.takeWhile (· ≠ '\n'))
  | _, _ => none

/-- `re.match(r"^\"(.*)\"$", optdata)` applied to a `strip()`ed string:
succeeds when the text is wrapped in double quotes with no newline between
them, returning the inside.  (After `strip()` the string cannot end in a
newline, so `$` matching before a trailing newline cannot occur.) -/
def quoteStrip (s : List Char) : Option (List Char) :=
  match s with
  | '"' :: rest =>
    if rest.getLast? = some '"' ∧ '\n' ∉ rest.dropLast then some rest.dropLast else none
  | _ => none

/-- `re.match(r'^(.+)\=(.*)$', ldv)`: split an associative element at its
*last* `=` (the `(.+)` is greedy), requiring a nonempty key.  `$` may match
just before one final newline, which is then dropped; any other newline
makes the match fail.  A failed match stores the whole element as a key with
empty value. -/
def assocSplit (s : List Char) : List Char × List Char :=
  let core := if s.getLast? = some '\n' then s.dropLast else s
  match core.reverse.dropWhile (· ≠ '=') with
  | '=' :: kRev =>
    if kRev ≠ [] ∧ '\n' ∉ core then (kRev.reverse, (core.reverse.takeWhile (· ≠ '=')).reverse)
    else (s, [])
  | _ => (s, [])

/-- The four option formats of `NWC2ClassifyOptTag`. -/
inductive OptClass
  | raw
  | text
  | list
  | assoc
deriving DecidableEq

/-- `NWC2ClassifyOptTag(ObjType, Tag)`. -/
def NWC2ClassifyOptTag (objType tag : List Char) : OptClass :=
  if tag = cs "Opts" ∨ tag = cs "Dur" ∨ tag = cs "Dur2" ∨ tag = cs "Endings" then .assoc
  else if tag = cs "Signature" ∧ objType = cs "Key" then .assoc
  else if tag = cs "Text" ∨ tag = cs "Name" then .text
  else if tag = cs "DynVel" then .list
  else if (objType = cs "Chord" ∨ objType = cs "RestChord") ∧ (tag = cs "Pos" ∨ tag = cs "Pos2") then .list
  else .raw

/-- A Python value stored in the options dictionary: a string, a list of
strings, or a string-keyed dictionary of strings. -/
inductive PyVal
  | str (s : List Char)
  | list (xs : List (List Char))
  | dict (d : List (List Char × List Char))
deriving DecidableEq

/-- Python dictionary assignment `d[k] = v` on the ordered association-list
model: replace the value in place if the key exists, else append. -/
def dictInsert {α β : Type} [DecidableEq α] (k : α) (v : β) : List (α × β) → List (α × β)
  | [] => [(k, v)]
  | (k', v') :: d => if k' = k then (k', v) :: d else (k', v') :: dictInsert k v d

/-- Python dictionary lookup `d.get(k)`. -/
def dictGet {α β : Type} [DecidableEq α] (k : α) : List (α × β) → Option β
  | [] => none
  | (k', v') :: d => if k' = k then some v' else dictGet k d

/-- A parsed clip text line: `NWC2ClipItem`'s `ObjType` and `Opts` fields. -/
structure ClipItem where
  ObjType : List Char
  Opts : List (List Char × PyVal)
deriving DecidableEq

/-- Convert the (stripped) option data of a `Tag:Value` field into the value
stored in `Opts`, following the tag's classification. -/
def parseOptData (objType tag optdata : List Char) : PyVal :=
  match NWC2ClassifyOptTag objType tag with
  | .text =>
    let t := match quoteStrip optdata with | some m => m | none => optdata
    .str (UnescapeText t)
  | .list => .list (splitCommaWS optdata)
  | .assoc =>
    .dict ((splitCommaWS optdata).foldl
      (fun d e => dictInsert (assocSplit e).1 (assocSplit e).2 d) [])
  | .raw => .str optdata

/-- Process one `|`-delimited field of a clip line: either `Tag:Value` or a
bare option stored with empty string value. -/
def addOpt (item : ClipItem) (v : List Char) : ClipItem :=
  match tagMatch v with
  | none => { item with Opts := dictInsert v (.str []) item.Opts }
  | some (tag, rest) =>
    { item with Opts := dictInsert tag (parseOptData item.ObjType tag (strip rest)) item.Opts }

/-- `NWC2ClipItem.__init__`: split the `rstrip()`ed line on unescaped `|`,
drop the text before the first delimiter, take the object type, and fold the
remaining fields into the options dictionary.  `none` models the
`IndexError` raised when the line has no unescaped `|` at all. -/
def parseClipItem (itemtext : List Char) : Option ClipItem :=
  match splitUnescaped '|' (rstrip itemtext) with
  | _ :: objType :: rest => some (rest.foldl addOpt { ObjType := objType, Opts := [] })
  | _ => none

/-- One `key` / `key=value` element of a reconstructed associative option. -/
def emitAssocEntry (e : List Char × List Char) : List Char :=
  if e.2 = [] then e.1 else e.1 ++ '=' :: e.2

/-- The payload written after `|Tag:` by `ReconstructClipText`; `none` models
the `trigger_error` calls on a list or dictionary value whose tag is not
classified as list resp. associative. -/
def emitOptVal (objType k : List Char) (v : PyVal) : Option (List Char) :=
  match v with
  | .str s =>
    let s2 := EscapeText s
    if NWC2ClassifyOptTag objType k = .text then some ('"' :: (s2 ++ ['"'])) else some s2
  | .list xs =>
    if NWC2ClassifyOptTag objType k = .list then some (List.intercalate [','] xs) else none
  | .dict d =>
    if NWC2ClassifyOptTag objType k = .assoc then
      some (List.intercalate [','] (d.map emitAssocEntry))
    else none

/-- One option as emitted by `ReconstructClipText` (without the leading `|`):
an empty string value gives the bare tag, anything else `Tag:payload`. -/
def emitOpt (objType : List Char) (e : List Char × PyVal) : Option (List Char) :=
  if e.2 = .str [] then some e.1
  else (emitOptVal objType e.1 e.2).map (fun body => e.1 ++ ':' :: body)

/-- `NWC2ClipItem.ReconstructClipText`. -/
def ReconstructClipText (item : ClipItem) : Option (List Char) :=
  item.Opts.foldlM (fun acc e => (emitOpt item.ObjType e).map (fun f => acc ++ '|' :: f))
    ('|' :: item.ObjType)

/-! ## Note pitch -/

/-- `nwcNoteNames`. -/
def nwcNoteNames : List Char := ['A', 'B', 'C', 'D', 'E', 'F', 'G']

/-- `nwcNoteKeys[c]` (the index of a note letter in `nwcNoteNames`). -/
def nwcNoteKey (c : Char) : Int :=
  if c = 'A' then 0 else if c = 'B' then 1 else if c = 'C' then 2 else if c = 'D' then 3
  else if c = 'E' then 4 else if c = 'F' then 5 else 6

/-- `nwcAccidentals`. -/
def nwcAccidentals : List Char := ['v', 'b', 'n', '#', 'x']

/-- `nwcAccidentalKeys[c]` (the index of an accidental in `nwcAccidentals`). -/
def nwcAccidentalKey (c : Char) : Int :=
  if c = 'v' then 0 else if c = 'b' then 1 else if c = 'n' then 2 else if c = '#' then 3 else 4

/-- `nwcClefCenterTones[clef]`; `none` models the `KeyError` on an
unrecognized clef name (`nwcGetClefStdCenterTone`). -/
def nwcClefCenterTones (clef : List Char) : Option Int :=
  if clef = cs "Treble" then some (4 * 7 + nwcNoteKey 'B')
  else if clef = cs "Bass" then some (2 * 7 + nwcNoteKey 'D')
  else if clef = cs "Alto" then some (3 * 7 + nwcNoteKey 'C')
  else if clef = cs "Tenor" then some (3 * 7 + nwcNoteKey 'A')
  else if clef = cs "Drum" then some (2 * 7 + nwcNoteKey 'D')
  else none

/-- The decoded fields of `NWC2NotePitchPos`.  `Tied` models the truthiness
of the `[\^]{0,1}` group. -/
structure NotePitchPos where
  Accidental : List Char
  Position : Int
  Notehead : List Char
  Tied : Bool
deriving DecidableEq

/-- The regex class `[\#bnxv]`. -/
def isAccChar (c : Char) : Bool := c = '#' || c = 'b' || c = 'n' || c = 'x' || c = 'v'

/-- The regex class `[oxXz]`. -/
def isNoteheadChar (c : Char) : Bool := c = 'o' || c = 'x' || c = 'X' || c = 'z'

/-- Decimal value of a digit run. -/
def digitsToNat (ds : List Char) : Nat := ds.foldl (fun n c => n * 10 + (c.toNat - '0'.toNat)) 0

/-- Match `(\-{0,1}[0-9]+)([oxXz]{0,1})([\^]{0,1})` at the head of `s`,
ignoring trailing text, returning position, notehead and tie marker. -/
def decodePitchCore (s : List Char) : Option (Int × List Char × Bool) :=
  let neg : Bool := match s with | '-' :: _ => true | _ => false
  let t := if neg then s.tail else s
  let ds := t.takeWhile Char.isDigit
  if ds = [] then none
  else
    let rest := t.dropWhile Char.isDigit
    let nh : List Char := match rest with
      | c :: _ => if isNoteheadChar c then [c] else []
      | [] => []
    let rest2 := if nh = [] then rest else rest.tail
    let tied : Bool := match rest2 with | '^' :: _ => true | _ => false
    some (if neg then -(digitsToNat ds : Int) else (digitsToNat ds : Int), nh, tied)

/-- `NWC2NotePitchPos.__init__`: match
`^([\#bnxv]{0,1})(\-{0,1}[0-9]+)([oxXz]{0,1})([\^]{0,1})` against the token.
On failure every field keeps its lenient default (`""`, `0`, `""`, untied).
(Backtracking the optional accidental to width zero can never rescue a
failed match, because accidental characters are neither digits nor `-`.) -/
def decodePitch (postxt : List Char) : NotePitchPos :=
  match postxt with
  | c :: rest =>
    if isAccChar c then
      match decodePitchCore rest with
      | some (p, nh, td) => ⟨[c], p, nh, td⟩
      | none => ⟨[], 0, [], false⟩
    else
      match decodePitchCore postxt with
      | some (p, nh, td) => ⟨[], p, nh, td⟩
      | none => ⟨[], 0, [], false⟩
  | [] => ⟨[], 0, [], false⟩

/-- `NWC2NotePitchPos.GetAccidentalPitchOffset`. -/
def GetAccidentalPitchOffset (p : NotePitchPos) : Int :=
  match p.Accidental with
  | a :: _ => nwcAccidentalKey a - 2
  | [] => 0

/-- `NWC2NotePitchPos.GetNoteName`: `nwcNoteNames[(56 + centerTone + Position) % 7]`
as a one-character string; `none` models the `KeyError` on an unknown clef. -/
def GetNoteName (p : NotePitchPos) (clef : List Char) : Option (List Char) :=
  (nwcClefCenterTones clef).map fun ct =>
    [nwcNoteNames.getD ((56 + ct + p.Position) % 7).toNat 'A']

/-! ## Playback context -/

/-- The seven-letter accidental maps `Key` and `RunKey`. -/
structure KeySig where
  A : Int
  B : Int
  C : Int
  D : Int
  E : Int
  F : Int
  G : Int
deriving DecidableEq

/-- Read the offset of one note letter. -/
def KeySig.get (k : KeySig) (c : Char) : Int :=
  if c = 'A' then k.A else if c = 'B' then k.B else if c = 'C' then k.C else if c = 'D' then k.D
  else if c = 'E' then k.E else if c = 'F' then k.F else if c = 'G' then k.G else 0

/-- Write the offset of one note letter. -/
def KeySig.set (k : KeySig) (c : Char) (v : Int) : KeySig :=
  if c = 'A' then { k with A := v } else if c = 'B' then { k with B := v }
  else if c = 'C' then { k with C := v } else if c = 'D' then { k with D := v }
  else if c = 'E' then { k with E := v } else if c = 'F' then { k with F := v }
  else if c = 'G' then { k with G := v } else k

/-- The all-zero key signature. -/
def zeroKeySig : KeySig := ⟨0, 0, 0, 0, 0, 0, 0⟩

/-- The `self.Context` dictionary of `NWC2PlayContext`. -/
structure Ctx where
  Clef : List Char
  ClefOctave : List Char
  Transposition : Int
  Key : KeySig
  RunKey : KeySig
  Ties : List (List Char)
  Slur : Bool
deriving DecidableEq

/-- The full `NWC2PlayContext` state.  `Context = none` models the Python
`False` value a snapshot-less restore would install (never reachable from
the initial state); `Ending1Context = none` models the initial `False`. -/
structure PlayCtx where
  Context : Option Ctx
  SeenFirstEnding : Bool
  Ending1Context : Option Ctx
deriving DecidableEq

/-- The initial `self.Context` value. -/
def initCtx : Ctx :=
  { Clef := cs "Treble", ClefOctave := cs "None", Transposition := 0,
    Key := zeroKeySig, RunKey := zeroKeySig, Ties := [], Slur := false }

/-- `NWC2PlayContext.__init__`. -/
def initPlayContext : PlayCtx :=
  { Context := some initCtx, SeenFirstEnding := false, Ending1Context := none }

/-- `NWC2ClipItem.GetTaggedOpt(tag, default)`. -/
def GetTaggedOpt (item : ClipItem) (tag : List Char) (dflt : PyVal) : PyVal :=
  (dictGet tag item.Opts).getD dflt

/-- Whether `pre` is a prefix of `s`. -/
def listStartsWith : List Char → List Char → Bool
  | [], _ => true
  | _ :: _, [] => false
  | a :: pre, b :: s => a = b && listStartsWith pre s

/-- Python substring containment `needle in hay` for strings. -/
def isSubstr (needle : List Char) : List Char → Bool
  | [] => needle.isEmpty
  | c :: t => listStartsWith needle (c :: t) || isSubstr needle t

/-- The Python `in` operator on the values an option can hold: substring
test on a string, membership on a list, key membership on a dictionary. -/
def pyIn (needle : List Char) (v : PyVal) : Bool :=
  match v with
  | .str s => isSubstr needle s
  | .list xs => xs.contains needle
  | .dict d => d.any (fun e => e.1 = needle)

/-- `NWC2ClipItem.GetTaggedOptAsArray(tag, [])` for pitch options: a string
is wrapped in a one-element list.  A dictionary value would be wrapped too
and then make `NWC2NotePitchPos` raise a `TypeError` on the first pitch, so
it is modelled as the failure (`none`); it cannot occur for a parsed item
because `Pos`/`Pos2` are never classified associative. -/
def GetTaggedOptAsArrayStr (item : ClipItem) (tag : List Char) : Option (List (List Char)) :=
  match dictGet tag item.Opts with
  | none => some []
  | some (.str s) => some [s]
  | some (.list xs) => some xs
  | some (.dict _) => none

/-- Python `int()` of a string: optional sign and a nonempty digit run,
surrounded by optional whitespace; `none` models the `ValueError`. -/
def pyInt (s : List Char) : Option Int :=
  let t := strip s
  match t with
  | '-' :: ds => if ds ≠ [] ∧ ds.all Char.isDigit then some (-(digitsToNat ds : Int)) else none
  | '+' :: ds => if ds ≠ [] ∧ ds.all Char.isDigit then some (digitsToNat ds : Int) else none
  | ds => if ds ≠ [] ∧ ds.all Char.isDigit then some (digitsToNat ds : Int) else none

/-- `o.GetTaggedOpt(tag, default)` read as a string (as the `Clef` branch of
`UpdateContext` does): a list or dictionary value would be stored in the
context and make the next clef lookup raise, modelled as the failure here;
unreachable for parsed items, whose `Type`/`OctaveShift` are always raw. -/
def getStrOptD (o : ClipItem) (tag dflt : List Char) : Option (List Char) :=
  match dictGet tag o.Opts with
  | none => some dflt
  | some (.str s) => some s
  | some _ => none

/-- `int(o.GetTaggedOpt("Trans", 0))`: the default `0` is already an int; a
list or dictionary value would raise a `TypeError`. -/
def transValue (item : ClipItem) : Option Int :=
  match dictGet (cs "Trans") item.Opts with
  | none => some 0
  | some (.str s) => pyInt s
  | some _ => none

/-- Python list indexing with negative-index-from-the-end semantics;
`none` models the `IndexError`. -/
def pyListGet (l : List Char) (i : Int) : Option Char :=
  let j := if i < 0 then (l.length : Int) + i else i
  if 0 ≤ j then l.get? j.toNat else none

/-- `nwcAccidentals[RunKey[letter] + 2]`. -/
def runKeyAccidental (rk : KeySig) (letter : Char) : Option Char :=
  pyListGet nwcAccidentals (rk.get letter + 2)

/-- `str()` of a Python int. -/
def intStr (i : Int) : List Char := (toString i).data

/-- The `Ties` manipulation for one pitch (`nwctxt.py` lines 353–357):
a key present in the list is removed (first occurrence) when the pitch is
not tied; an absent key is appended when the pitch is tied. -/
def tieUpdate (ties : List (List Char)) (tieKey : List Char) (tied : Bool) : List (List Char) :=
  if tieKey ∈ ties then (if !tied then ties.erase tieKey else ties)
  else if tied then ties ++ [tieKey] else ties

/-- The running state of the pitch loop: the live `Ties` list and the
deferred `RunKey_Changes` dictionary. -/
structure PitchState where
  Ties : List (List Char)
  Changes : List (Char × Int)
deriving DecidableEq

/-- One iteration of the pitch loop in `UpdateContext`.  The effective
accidental of an accidental-less pitch is read from `ctx.RunKey`, which the
loop never modifies (explicit accidentals only record into `Changes`). -/
def pitchStep (ctx : Ctx) (st : PitchState) (tok : List Char) : Option PitchState := do
  let p := decodePitch tok
  let nm ← GetNoteName p ctx.Clef
  let letter := nm.headD 'A'
  let noteacc ← match p.Accidental with
    | a :: _ => some [a]
    | [] => (runKeyAccidental ctx.RunKey letter).map ([·])
  let tieKey := noteacc ++ intStr p.Position
  let ties := tieUpdate st.Ties tieKey p.Tied
  let changes :=
    if p.Accidental ≠ [] then dictInsert letter (GetAccidentalPitchOffset p) st.Changes
    else st.Changes
  pure ⟨ties, changes⟩

/-- `self.Context["RunKey"].update(RunKey_Changes)`. -/
def applyChanges (k : KeySig) : List (Char × Int) → KeySig
  | [] => k
  | (c, v) :: rest => applyChanges (k.set c v) rest

/-- `NWC2PlayContext.SaveRestoreContext`. -/
def SaveRestoreContext (pc : PlayCtx) (o : ClipItem) : PlayCtx :=
  if o.ObjType = cs "Ending" then
    let endings := GetTaggedOpt o (cs "Endings") (.dict [])
    if pyIn (cs "1") endings ∧ pc.SeenFirstEnding = false then
      { pc with SeenFirstEnding := true, Ending1Context := pc.Context }
    else if pc.SeenFirstEnding = true ∧ ¬ pyIn (cs "1") endings then
      { pc with Context := pc.Ending1Context }
    else pc
  else pc

/-- The object types handled by the pitch branch of `UpdateContext`. -/
def noteObjTypes : List (List Char) := [cs "Note", cs "Chord", cs "Rest", cs "RestChord"]

/-- `NWC2PlayContext.UpdateContext`.  `none` marks any Python exception:
`KeyError` on a missing `Dur` option or an unknown clef, `IndexError` on an
out-of-range accidental index, `ValueError` on a bad `Trans` integer,
`TypeError` on a corrupted (`False`) context. -/
def UpdateContext (pc : PlayCtx) (o : ClipItem) : Option PlayCtx :=
  if o.ObjType ∈ noteObjTypes then do
    let notes1 ← GetTaggedOptAsArrayStr o (cs "Pos")
    let notes2 ← GetTaggedOptAsArrayStr o (cs "Pos2")
    let notes :=
      if notes1 = [] then notes2
      else if notes2 ≠ [] then
        if dictGet (cs "Stem") o.Opts = some (.str (cs "Up")) then notes2 ++ notes1
        else notes1 ++ notes2
      else notes1
    let ctx ← pc.Context
    let st ← notes.foldlM (pitchStep ctx) ⟨ctx.Ties, []⟩
    let rk := applyChanges ctx.RunKey st.Changes
    let dur ← dictGet (cs "Dur") o.Opts
    let slur := if ¬ pyIn (cs "Grace") dur then pyIn (cs "Slur") dur else ctx.Slur
    pure { pc with Context := some { ctx with Ties := st.Ties, RunKey := rk, Slur := slur } }
  else if o.ObjType = cs "Bar" then do
    let ctx ← pc.Context
    let seen :=
      if GetTaggedOpt o (cs "Style") (.str []) = .str (cs "MasterRepeatOpen") then false
      else pc.SeenFirstEnding
    pure { pc with Context := some { ctx with RunKey := ctx.Key }, SeenFirstEnding := seen }
  else if o.ObjType = cs "Clef" then do
    let ctx ← pc.Context
    let cl ← getStrOptD o (cs "Type") (cs "Treble")
    let co ← getStrOptD o (cs "OctaveShift") (cs "None")
    pure { pc with Context := some { ctx with Clef := cl, ClefOctave := co } }
  else if o.ObjType = cs "Key" then do
    let ctx ← pc.Context
    let k := GetTaggedOpt o (cs "Signature") (.list [])
    let newKey := nwcNoteNames.foldl (fun ks nn =>
      ks.set nn (if pyIn [nn, 'b'] k then -1 else if pyIn [nn, '#'] k then 1 else 0)) ctx.Key
    pure { pc with Context := some { ctx with Key := newKey, RunKey := newKey } }
  else if o.ObjType = cs "Instrument" then do
    let ctx ← pc.Context
    let t ← transValue o
    pure { pc with Context := some { ctx with Transposition := t } }
  else if o.ObjType = cs "Ending" then some (SaveRestoreContext pc o)
  else some pc

/-- `NWC2PlayContext.GetNotePitchAccidental`. -/
def GetNotePitchAccidental (pc : PlayCtx) (p : NotePitchPos) : Option (List Char) := do
  let ctx ← pc.Context
  let nm ← GetNoteName p ctx.Clef
  match p.Accidental with
  | a :: _ => some [a]
  | [] => (runKeyAccidental ctx.RunKey (nm.headD 'A')).map ([·])

/-- `NWC2PlayContext.GetNotePitchName`. -/
def GetNotePitchName (pc : PlayCtx) (p : NotePitchPos) : Option (List Char) := do
  let ctx ← pc.Context
  GetNoteName p ctx.Clef

/-- The `Endings` associative option of an `Ending` object, defaulting to
the empty dictionary, as read by `SaveRestoreContext`. -/
def endingsOf (o : ClipItem) : PyVal := GetTaggedOpt o (cs "Endings") (.dict [])

/-- The playback states reachable from `NWC2PlayContext.__init__` by
successful `UpdateContext` steps. -/
inductive Reachable : PlayCtx → Prop
  | init : Reachable initPlayContext
  | step {pc : PlayCtx} {o : ClipItem} {pc' : PlayCtx} :
      Reachable pc → UpdateContext pc o = some pc' → Reachable pc'

/-- Modelled from the spec: the pitch loop as the claim describes it, where a
pitch with an explicit accidental sets `RunningKey[letter]` immediately, *as
part of processing that pitch*, so that a later pitch of the same object
reads the updated running key.  The state is the (live) running key paired
with the tie list.  Used only for comparison against the source's
`pitchStep`, whose `RunningKey` update is deferred. -/
def pitchStepClaim (clef : List Char) (st : KeySig × List (List Char)) (tok : List Char) :
    Option (KeySig × List (List Char)) := do
  let p := decodePitch tok
  let nm ← GetNoteName p clef
  let letter := nm.headD 'A'
  let noteacc ← match p.Accidental with
    | a :: _ => some [a]
    | [] => (runKeyAccidental st.1 letter).map ([·])
  let ties := tieUpdate st.2 (noteacc ++ intStr p.Position) p.Tied
  let rk :=
    if p.Accidental ≠ [] then st.1.set letter (GetAccidentalPitchOffset p) else st.1
  pure (rk, ties)

/-! ## Well-formedness predicates used by the amended claims -/

/-- All seven offsets of a key map lie in the accidental range `[-2, 2]`. -/
def keySigInRange (k : KeySig) : Bool :=
  decide (-2 ≤ k.A ∧ k.A ≤ 2) && decide (-2 ≤ k.B ∧ k.B ≤ 2) &&
  decide (-2 ≤ k.C ∧ k.C ≤ 2) && decide (-2 ≤ k.D ∧ k.D ≤ 2) &&
  decide (-2 ≤ k.E ∧ k.E ≤ 2) && decide (-2 ≤ k.F ∧ k.F ≤ 2) &&
  decide (-2 ≤ k.G ∧ k.G ≤ 2)

/-- A playback state with an intact context dictionary, a recognized clef
and running-key offsets in the accidental range.  All states reachable from
the initial state satisfy this. -/
def goodPlayState (pc : PlayCtx) : Bool :=
  match pc.Context with
  | none => false
  | some ctx => (nwcClefCenterTones ctx.Clef).isSome && keySigInRange ctx.RunKey

/-- An optional option value that is not a dictionary. -/
def notDictOpt : Option PyVal → Bool
  | some (.dict _) => false
  | _ => true

/-- An optional option value that is either absent or a string. -/
def strOrMissing : Option PyVal → Bool
  | none => true
  | some (.str _) => true
  | some _ => false

/-- The per-object conditions under which `UpdateContext` cannot raise:
a pitch-bearing object carries a `Dur` option and no dictionary-valued
`Pos`/`Pos2`; a `Clef` object carries string-valued `Type`/`OctaveShift`;
an `Instrument` object carries an integer-parsable `Trans`. -/
def goodObjForUpdate (o : ClipItem) : Bool :=
  (if o.ObjType ∈ noteObjTypes then
    (dictGet (cs "Dur") o.Opts).isSome &&
    notDictOpt (dictGet (cs "Pos") o.Opts) && notDictOpt (dictGet (cs "Pos2") o.Opts)
  else true) &&
  (if o.ObjType = cs "Clef" then
    strOrMissing (dictGet (cs "Type") o.Opts) &&
    strOrMissing (dictGet (cs "OctaveShift") o.Opts)
  else true) &&
  (if o.ObjType = cs "Instrument" then (transValue o).isSome else true)

/-! ## Reconstruction well-formedness (for the amended round-trip claim) -/

/-- `fieldKeeps p prev f`: scanning `f` with `prev` as the character before
its first character, no splitting occurrence of `p` (one whose predecessor
is not a backslash) is found. -/
def fieldKeeps (p : Char) : Option Char → List Char → Bool
  | _, [] => true
  | prev, c :: r => if c = p ∧ prev ≠ some '\\' then false else fieldKeeps p (some c) r

/-- Join fields with a single-character separator (what the reconstruction
loops emit between fields resp. elements). -/
def joinFields (sep : Char) : List (List Char) → List Char
  | [] => []
  | [f] => f
  | f :: fs => f ++ sep :: joinFields sep fs

/-- The character preceding the position just after `a`, when scanning
started with `prev` before `a`. -/
def lastCh (prev : Option Char) (a : List Char) : Option Char :=
  match a.getLast? with
  | some c => some c
  | none => prev

/-- A `|`-field safe to re-split: no unescaped pipe, no trailing backslash
(which would escape the following delimiter), no trailing whitespace (which
the line-level `rstrip` would eat if the field came last). -/
def fieldSafe (f : List Char) : Bool :=
  fieldKeeps '|' (some ' ') f && !(f.getLast? == some '\\') && (rstrip f == f)

/-- A list/associative element safe to re-split on commas: no unescaped
comma, no trailing backslash, no leading whitespace (which the `\s*` after
a comma would eat). -/
def eltSafe (x : List Char) : Bool :=
  fieldKeeps ',' (some ' ') x && !(x.getLast? == some '\\') && (lstrip x == x)

/-- A list/associative payload safe to pass through the field split, the
line-level strip and the option-level strip unchanged. -/
def payloadSafe (payload : List Char) : Bool :=
  payload.all (fun c => !(c = '\n')) && !(payload.getLast? == some '\\') &&
  (rstrip payload == payload) && (lstrip payload == payload) &&
  fieldKeeps '|' (some ' ') payload

/-- A nonempty tag matched by `^([0-9A-Za-z\-_]+)`. -/
def tagKey (k : List Char) : Bool := !k.isEmpty && k.all isTagChar

/-- Conditions on one stored option under which reconstruction followed by
re-parsing restores it exactly (see `c1_amended_roundtrip`).  Text-classified
string values may contain anything except CR, LF and TAB: escaping and
quoting protect every other character, but `UnescapeText` turns an escaped
CR, LF or TAB into the literal letter `r`, `n` or `t`. -/
def goodOpt (objType : List Char) (e : List Char × PyVal) : Bool :=
  match e.2 with
  | .str [] => fieldSafe e.1 && (tagMatch e.1).isNone
  | .str s =>
    tagKey e.1 &&
    (match NWC2ClassifyOptTag objType e.1 with
     | .text => s.all (fun c => !(c = '\r' || c = '\n' || c = '\t'))
     | .raw => s.all (fun c => !isEscChar c) && (rstrip s == s) && (lstrip s == s)
     | _ => false)
  | .list xs =>
    tagKey e.1 && decide (NWC2ClassifyOptTag objType e.1 = .list) &&
    !xs.isEmpty && xs.all eltSafe && payloadSafe (List.intercalate [','] xs)
  | .dict d =>
    tagKey e.1 && decide (NWC2ClassifyOptTag objType e.1 = .assoc) &&
    !d.isEmpty && decide ((d.map Prod.fst).Nodup) &&
    d.all (fun kv => eltSafe (emitAssocEntry kv) && (assocSplit (emitAssocEntry kv) == kv)) &&
    payloadSafe (List.intercalate [','] (d.map emitAssocEntry))

/-- Conditions on a parsed item under which reconstruction followed by
re-parsing restores it exactly. -/
def goodItem (item : ClipItem) : Bool :=
  fieldSafe item.ObjType && decide ((item.Opts.map Prod.fst).Nodup) &&
  item.Opts.all (goodOpt item.ObjType)

/-- The field text `emitOpt` produces when it succeeds (totalized form used
to state the round-trip lemmas). -/
def emitOptG (objType : List Char) (e : List Char × PyVal) : List Char :=
  match e.2 with
  | .str [] => e.1
  | .str s =>
    e.1 ++ ':' ::
      (if NWC2ClassifyOptTag objType e.1 = .text then '"' :: (EscapeText s ++ ['"'])
       else EscapeText s)
  | .list xs => e.1 ++ ':' :: List.intercalate [','] xs
  | .dict d => e.1 ++ ':' :: List.intercalate [','] (d.map emitAssocEntry)

/-- The printable-plus-CR/LF/TAB alphabet named by the escaping claim. -/
def inPrintableAlphabet (c : Char) : Bool :=
  (decide (32 ≤ c.toNat) && decide (c.toNat ≤ 126)) || c = '\r' || c = '\n' || c = '\t'

/-! # Theorems -/

/-! ## Escaping -/

theorem unescape_cons_ne {c : Char} (h : c ≠ '\\') (s : List Char) :
    UnescapeText (c :: s) = c :: UnescapeText s := by
  cases s <;> simp [UnescapeText, h]

/-- The two-character match `\c` always replaces to the single literal
character `c`: none of the dead decode branches can fire on it. -/
theorem unescReplChar_pair (c2 : Char) : unescReplChar ['\\', c2] = [c2] := by
  simp [unescReplChar]

theorem unescape_pair {c2 : Char} (h : c2 ≠ '\n') (s2 : List Char) :
    UnescapeText ('\\' :: c2 :: s2) = c2 :: UnescapeText s2 := by
  simp [UnescapeText, h, unescReplChar_pair]

/-- Unescaping after escaping replaces every CR, LF and TAB by the literal
letter `r`, `n` or `t` — the character `EscapeText` writes after the
backslash, which `UnescapeText` hands back verbatim — and restores every
other character. -/
theorem unescape_escape_map (s : List Char) :
    UnescapeText (EscapeText s) = s.map escCode := by
  induction s with
  | nil => rfl
  | cons c s ih =>
    by_cases h : isEscChar c = true
    · have hcases : c = '\'' ∨ c = '"' ∨ c = '\r' ∨ c = '\n' ∨ c = '\t' ∨ c = '|' ∨ c = '\\' := by
        simp [isEscChar] at h; tauto
      rcases hcases with rfl | rfl | rfl | rfl | rfl | rfl | rfl <;>
        simp [EscapeText, isEscChar, escCode, unescape_pair, ih]
    · have hne : ¬ c = '\\' := by
        intro hc; subst hc; simp [isEscChar] at h
      have h2 : (((((¬c = '\'' ∧ ¬c = '"') ∧ ¬c = '\r') ∧ ¬c = '\n') ∧ ¬c = '\t')
          ∧ ¬c = '|') ∧ ¬c = '\\' := by
        simpa [isEscChar] using h
      obtain ⟨⟨⟨⟨⟨⟨-, -⟩, h3⟩, h4⟩, h5⟩, -⟩, -⟩ := h2
      simp [EscapeText, h, unescape_cons_ne hne, ih, escCode, h3, h4, h5]

/-- On a string free of CR, LF and TAB, unescaping exactly undoes escaping. -/
theorem unescape_escape_of_ctrlfree (s : List Char)
    (h : ∀ c ∈ s, ¬(c = '\r' ∨ c = '\n' ∨ c = '\t')) :
    UnescapeText (EscapeText s) = s := by
  rw [unescape_escape_map]
  induction s with
  | nil => rfl
  | cons c s ih =>
    have hc := h c (List.mem_cons_self c s)
    have hcode : escCode c = c := by
      unfold escCode
      rw [if_neg (fun hh => hc (Or.inl hh)), if_neg (fun hh => hc (Or.inr (Or.inl hh))),
        if_neg (fun hh => hc (Or.inr (Or.inr hh)))]
    simp only [List.map_cons, hcode, List.cons.injEq]
    exact ⟨trivial, ih (fun x hx => h x (List.mem_cons_of_mem c hx))⟩

/-- Claim C4 counterexample: over the claimed printable-plus-CR/LF/TAB
alphabet the inverse fails.  Escaping TAB yields `\t`, but `UnescapeText`
replaces every `\\.` match by the literal character after the backslash
(its decode branches compare the two-character match to one-character
strings and never fire), so the round trip turns TAB into the letter `t`. -/
theorem c4_counterexample :
    (∀ c ∈ cs "\t", inPrintableAlphabet c = true) ∧
    UnescapeText (EscapeText (cs "\t")) = cs "t" ∧
    UnescapeText (EscapeText (cs "\t")) ≠ cs "\t" := by
  refine ⟨by decide, by decide, by decide⟩

/-- Claim C4, amended: `UnescapeText (EscapeText s) = s` holds for every
string over the printable alphabet with CR, LF and TAB excluded; on CR, LF
and TAB the round trip instead yields the literal letters `r`, `n`, `t`. -/
theorem c4_amended_inverse (s : List Char)
    (_hp : ∀ c ∈ s, inPrintableAlphabet c = true)
    (hc : ∀ c ∈ s, ¬(c = '\r' ∨ c = '\n' ∨ c = '\t')) :
    UnescapeText (EscapeText s) = s :=
  unescape_escape_of_ctrlfree s hc

/-- Witness for the amended claim C4 at a concrete string containing every
escaped character other than CR, LF and TAB. -/
theorem c4_witness :
    UnescapeText (EscapeText (cs "a|b\"c\\d")) = cs "a|b\"c\\d" :=
  c4_amended_inverse (cs "a|b\"c\\d") (by decide) (by decide)

/-! ## The concrete key-signature inheritance scenario -/

/-- Claim C9 counterexample: feed `|Key|Signature:F#`, then `|Bar`, then
take the pitch `3` of `|Note|Pos:3`.  On the treble clef position 3 names
the letter `E` — not `F` as the claim asserts — so `GetNotePitchAccidental`
returns `n`, not the `#` inherited for the letter `F`. -/
theorem c9_counterexample :
    (do
      let k ← parseClipItem (cs "|Key|Signature:F#")
      let b ← parseClipItem (cs "|Bar")
      let n ← parseClipItem (cs "|Note|Pos:3")
      let pc1 ← UpdateContext initPlayContext k
      let pc2 ← UpdateContext pc1 b
      let toks ← GetTaggedOptAsArrayStr n (cs "Pos")
      let p := decodePitch (toks.headD [])
      let nm ← GetNotePitchName pc2 p
      let acc ← GetNotePitchAccidental pc2 p
      pure (nm, acc)) = some (cs "E", cs "n") ∧
    ¬ (cs "E", cs "n") = (cs "F", cs "#") := by
  decide

/-- Claim C9 amended: with pitch position 4 — the treble-clef position that
does name the letter `F` — the effective accidental of the accidental-less
pitch of `|Note|Pos:4` after `|Key|Signature:F#` and `|Bar` is `#`,
inherited from the key signature; position 3 names `E` and inherits `n`. -/
theorem c9_amended :
    (do
      let k ← parseClipItem (cs "|Key|Signature:F#")
      let b ← parseClipItem (cs "|Bar")
      let n ← parseClipItem (cs "|Note|Pos:4")
      let pc1 ← UpdateContext initPlayContext k
      let pc2 ← UpdateContext pc1 b
      let toks ← GetTaggedOptAsArrayStr n (cs "Pos")
      let p := decodePitch (toks.headD [])
      let nm ← GetNotePitchName pc2 p
      let acc ← GetNotePitchAccidental pc2 p
      pure (nm, acc)) = some (cs "F", cs "#") ∧
    (decodePitch (cs "4")).Accidental = [] := by
  decide

/-! ## Tie discipline -/

/-- Claim C8: the occurrence count of any key `k` in `Ties` after one pitch
is processed — the pitch's tie key being its effective accidental glued to
its diatonic position — drops by exactly one when the pitch carries key `k`,
`k` is present and the pitch is not marked tied; grows by exactly one (from
zero) when the pitch carries key `k`, `k` is absent and the pitch is marked
tied; and is unchanged in every other case.  In particular a present key is
removed only by a later matching untied pitch, and exactly one matching
entry is removed. -/
theorem c8_tie_discipline (ties : List (List Char)) (tk k : List Char) (tied : Bool) :
    (tieUpdate ties tk tied).count k =
      if tk = k ∧ k ∈ ties ∧ tied = false then ties.count k - 1
      else if tk = k ∧ k ∉ ties ∧ tied = true then ties.count k + 1
      else ties.count k := by
  unfold tieUpdate
  by_cases htk : tk = k
  · subst htk
    by_cases hmem : tk ∈ ties <;> cases tied <;>
      simp [hmem, List.count_erase_self, List.count_append]
  · by_cases hmem : tk ∈ ties <;> cases tied <;>
      simp [hmem, htk, List.count_erase_of_ne (Ne.symm htk), List.count_append,
        Ne.symm htk]

/-! ## Deferred running-key changes inside one object -/

/-- Claim C7 counterexample: processing `|Chord|Dur:4th|Pos:#3^,3` from the
initial state leaves `#3` in `Ties`: the second pitch (`3`, same letter and
position, no explicit accidental) resolves its accidental from the
pre-object running key (`n`), so it does not resolve the tie opened by the
first pitch.  Under the claim's reading — replayed by `pitchStepClaim`,
which updates the running key as part of processing each pitch — the second
pitch would inherit `#` and resolve the tie, leaving `Ties` empty. -/
theorem c7_counterexample :
    ((parseClipItem (cs "|Chord|Dur:4th|Pos:#3^,3")).bind
        (UpdateContext initPlayContext)).map (fun pc => pc.Context.map Ctx.Ties)
      = some (some [cs "#3"]) ∧
    (List.foldlM (pitchStepClaim (cs "Treble")) (zeroKeySig, ([] : List (List Char)))
        [cs "#3^", cs "3"]).map Prod.snd = some [] ∧
    ¬ ([cs "#3"] : List (List Char)) = [] := by
  decide

/-- Claim C7 amended: within one pitch-bearing object the running key is not
updated pitch by pitch.  An explicit accidental only records a deferred
change, applied to `RunningKey` after the whole object; consequently the tie
bookkeeping of each pitch — in particular the effective accidental chosen
for a pitch with no explicit accidental — is independent of the accidental
changes recorded by earlier pitches of the same object, and inheritance
works only across objects, through the pre-object `RunningKey`. -/
theorem c7_amended (ctx : Ctx) (T : List (List Char)) (ch ch2 : List (Char × Int))
    (tok : List Char) :
    (pitchStep ctx ⟨T, ch⟩ tok).map PitchState.Ties =
    (pitchStep ctx ⟨T, ch2⟩ tok).map PitchState.Ties := by
  unfold pitchStep
  cases hn : GetNoteName (decodePitch tok) ctx.Clef with
  | none => simp [hn]
  | some nm =>
    cases hacc : (decodePitch tok).Accidental with
    | nil =>
      cases hr : runKeyAccidental ctx.RunKey (nm.headD 'A') with
      | none => simp [hn, hacc, hr]
      | some a => simp [hn, hacc, hr]
    | cons a rest => simp [hn, hacc]

/-! ## Reachable-state invariants -/

theorem tieUpdate_nodup {ties : List (List Char)} (h : ties.Nodup) (tk : List Char)
    (tied : Bool) : (tieUpdate ties tk tied).Nodup := by
  unfold tieUpdate
  split_ifs with h1 h2 h3
  · exact h.erase tk
  · exact h
  · simp [List.nodup_append, h, h1]
  · exact h

theorem pitchStep_ties_nodup {ctx : Ctx} {st st2 : PitchState} {tok : List Char}
    (h : pitchStep ctx st tok = some st2) (hn : st.Ties.Nodup) : st2.Ties.Nodup := by
  unfold pitchStep at h
  simp only [bind, Option.bind_eq_some] at h
  obtain ⟨nm, hnm, hrest⟩ := h
  cases hacc : (decodePitch tok).Accidental with
  | cons a rest =>
    rw [hacc] at hrest
    simp only [Option.some_bind] at hrest
    obtain rfl := Option.some.inj hrest
    exact tieUpdate_nodup hn _ _
  | nil =>
    rw [hacc] at hrest
    cases hX : Option.map (fun x => [x]) (runKeyAccidental ctx.RunKey (nm.headD 'A')) with
    | none => rw [hX, Option.none_bind] at hrest; cases hrest
    | some acc =>
      rw [hX] at hrest
      simp only [Option.some_bind] at hrest
      obtain rfl := Option.some.inj hrest
      exact tieUpdate_nodup hn _ _

theorem foldlM_ties_nodup {ctx : Ctx} (notes : List (List Char)) :
    ∀ {st st2 : PitchState}, List.foldlM (pitchStep ctx) st notes = some st2 →
      st.Ties.Nodup → st2.Ties.Nodup := by
  induction notes with
  | nil =>
    intro st st2 h hn
    simp only [List.foldlM] at h
    obtain rfl := Option.some.inj h
    exact hn
  | cons t ts ih =>
    intro st st2 h hn
    simp only [List.foldlM, bind, Option.bind_eq_some] at h
    obtain ⟨st1, hst1, hrest⟩ := h
    exact ih hrest (pitchStep_ties_nodup hst1 hn)

/-- Claim C10: in every state reachable from the initial playback context,
the context is an intact dictionary (never the `False` sentinel) whose
active-ties list is duplicate-free, and whenever `SeenFirstEnding` is set
the snapshot `Ending1Context` holds a really captured context — also with
duplicate-free ties — so the restore branch never installs `False` and
removing a resolved tie key removes its only occurrence. -/
theorem c10_reachable_invariant (pc : PlayCtx) (h : Reachable pc) :
    (∃ ctx, pc.Context = some ctx ∧ ctx.Ties.Nodup) ∧
    (pc.SeenFirstEnding = true → ∃ c1, pc.Ending1Context = some c1 ∧ c1.Ties.Nodup) := by
  induction h with
  | init => exact ⟨⟨initCtx, rfl, List.nodup_nil⟩, fun hf => absurd hf (by decide)⟩
  | @step pc o pc2 _ hstep ih =>
    obtain ⟨⟨ctx, hctx, hties⟩, hsnap⟩ := ih
    unfold UpdateContext at hstep
    by_cases hnote : o.ObjType ∈ noteObjTypes
    · rw [if_pos hnote] at hstep
      simp only [bind, Option.bind_eq_some] at hstep
      obtain ⟨n1, hn1, n2, hn2, ctx2, hctx2, st, hst, d, hd, hfin⟩ := hstep
      rw [hctx] at hctx2
      obtain rfl := Option.some.inj hctx2
      obtain rfl := Option.some.inj hfin
      exact ⟨⟨_, rfl, foldlM_ties_nodup _ hst hties⟩, hsnap⟩
    · rw [if_neg hnote] at hstep
      by_cases hbar : o.ObjType = cs "Bar"
      · rw [if_pos hbar] at hstep
        simp only [bind, Option.bind_eq_some] at hstep
        obtain ⟨ctx2, hctx2, hfin⟩ := hstep
        rw [hctx] at hctx2
        obtain rfl := Option.some.inj hctx2
        obtain rfl := Option.some.inj hfin
        refine ⟨⟨_, rfl, hties⟩, ?_⟩
        intro hsf
        simp only at hsf
        split at hsf
        · cases hsf
        · exact hsnap hsf
      · rw [if_neg hbar] at hstep
        by_cases hcl : o.ObjType = cs "Clef"
        · rw [if_pos hcl] at hstep
          simp only [bind, Option.bind_eq_some] at hstep
          obtain ⟨ctx2, hctx2, cl, hcld, co, hcod, hfin⟩ := hstep
          rw [hctx] at hctx2
          obtain rfl := Option.some.inj hctx2
          obtain rfl := Option.some.inj hfin
          exact ⟨⟨_, rfl, hties⟩, hsnap⟩
        · rw [if_neg hcl] at hstep
          by_cases hkey : o.ObjType = cs "Key"
          · rw [if_pos hkey] at hstep
            simp only [bind, Option.bind_eq_some] at hstep
            obtain ⟨ctx2, hctx2, hfin⟩ := hstep
            rw [hctx] at hctx2
            obtain rfl := Option.some.inj hctx2
            obtain rfl := Option.some.inj hfin
            exact ⟨⟨_, rfl, hties⟩, hsnap⟩
          · rw [if_neg hkey] at hstep
            by_cases hinst : o.ObjType = cs "Instrument"
            · rw [if_pos hinst] at hstep
              simp only [bind, Option.bind_eq_some] at hstep
              obtain ⟨ctx2, hctx2, t, ht, hfin⟩ := hstep
              rw [hctx] at hctx2
              obtain rfl := Option.some.inj hctx2
              obtain rfl := Option.some.inj hfin
              exact ⟨⟨_, rfl, hties⟩, hsnap⟩
            · rw [if_neg hinst] at hstep
              by_cases hend : o.ObjType = cs "Ending"
              · rw [if_pos hend] at hstep
                obtain rfl := Option.some.inj hstep
                unfold SaveRestoreContext
                rw [if_pos hend]
                by_cases hc1 : pyIn (cs "1") (GetTaggedOpt o (cs "Endings") (.dict [])) = true ∧
                    pc.SeenFirstEnding = false
                · rw [if_pos hc1]
                  exact ⟨⟨ctx, hctx, hties⟩, fun _ => ⟨ctx, hctx, hties⟩⟩
                · rw [if_neg hc1]
                  by_cases hc2 : pc.SeenFirstEnding = true ∧
                      ¬ pyIn (cs "1") (GetTaggedOpt o (cs "Endings") (.dict [])) = true
                  · rw [if_pos hc2]
                    obtain ⟨c1, hcc1, hcc1n⟩ := hsnap hc2.1
                    exact ⟨⟨c1, hcc1, hcc1n⟩, fun hsf => ⟨c1, hcc1, hcc1n⟩⟩
                  · rw [if_neg hc2]
                    exact ⟨⟨ctx, hctx, hties⟩, hsnap⟩
              · rw [if_neg hend] at hstep
                obtain rfl := Option.some.inj hstep
                exact ⟨⟨ctx, hctx, hties⟩, hsnap⟩

/-- Witness for claim C10: the state reached from the initial context by one
`Ending` step whose `Endings` set contains `1` (taking the snapshot). -/
theorem c10_witness :
    (∃ ctx, (⟨some initCtx, true, some initCtx⟩ : PlayCtx).Context = some ctx ∧
      ctx.Ties.Nodup) ∧
    ((⟨some initCtx, true, some initCtx⟩ : PlayCtx).SeenFirstEnding = true →
      ∃ c1, (⟨some initCtx, true, some initCtx⟩ : PlayCtx).Ending1Context = some c1 ∧
        c1.Ties.Nodup) :=
  c10_reachable_invariant ⟨some initCtx, true, some initCtx⟩
    (@Reachable.step initPlayContext
      ⟨cs "Ending", [(cs "Endings", PyVal.dict [(cs "1", [])])]⟩
      ⟨some initCtx, true, some initCtx⟩ Reachable.init (by decide))

/-! ## Totality of `UpdateContext` -/

/-- Claim C3 counterexample: `|Note|Pos:3` parses successfully, yet
`UpdateContext` on the initial state raises (`KeyError`): the pitch branch
reads `o.Opts["Dur"]` unconditionally and the object has no `Dur` option. -/
theorem c3_counterexample :
    parseClipItem (cs "|Note|Pos:3") ≠ none ∧
    (parseClipItem (cs "|Note|Pos:3")).bind (UpdateContext initPlayContext) = none := by
  decide

theorem keySigInRange_get {k : KeySig} (h : keySigInRange k = true) (c : Char) :
    -2 ≤ k.get c ∧ k.get c ≤ 2 := by
  simp [keySigInRange] at h
  unfold KeySig.get
  split_ifs <;> omega

theorem runKeyAccidental_isSome {k : KeySig} (h : keySigInRange k = true) (c : Char) :
    (runKeyAccidental k c).isSome = true := by
  obtain ⟨h1, h2⟩ := keySigInRange_get h c
  unfold runKeyAccidental
  set v := k.get c with hv
  interval_cases v <;> decide

theorem pitchStep_isSome {ctx : Ctx} (hclef : (nwcClefCenterTones ctx.Clef).isSome = true)
    (hrk : keySigInRange ctx.RunKey = true) (st : PitchState) (tok : List Char) :
    (pitchStep ctx st tok).isSome = true := by
  obtain ⟨ct, hct⟩ := Option.isSome_iff_exists.mp hclef
  have hnm : GetNoteName (decodePitch tok) ctx.Clef = some
      [nwcNoteNames.getD ((56 + ct + (decodePitch tok).Position) % 7).toNat 'A'] := by
    unfold GetNoteName; rw [hct]; rfl
  unfold pitchStep
  cases hacc : (decodePitch tok).Accidental with
  | nil =>
    have hr := runKeyAccidental_isSome hrk
      ([nwcNoteNames.getD ((56 + ct + (decodePitch tok).Position) % 7).toNat 'A'].headD 'A')
    obtain ⟨a, ha⟩ := Option.isSome_iff_exists.mp hr
    simp at ha
    simp [hnm, hacc, ha]
  | cons a rest => simp [hnm, hacc]

theorem foldlM_pitchStep_isSome {ctx : Ctx}
    (hclef : (nwcClefCenterTones ctx.Clef).isSome = true)
    (hrk : keySigInRange ctx.RunKey = true) (notes : List (List Char)) :
    ∀ st : PitchState, (List.foldlM (pitchStep ctx) st notes).isSome = true := by
  induction notes with
  | nil => intro st; rfl
  | cons t ts ih =>
    intro st
    obtain ⟨st2, hst2⟩ := Option.isSome_iff_exists.mp (pitchStep_isSome hclef hrk st t)
    simp [List.foldlM, hst2]
    exact ih st2

theorem getArr_isSome {o : ClipItem} {tag : List Char}
    (h : notDictOpt (dictGet tag o.Opts) = true) :
    (GetTaggedOptAsArrayStr o tag).isSome = true := by
  unfold GetTaggedOptAsArrayStr
  unfold notDictOpt at h
  cases hd : dictGet tag o.Opts with
  | none => rfl
  | some v => cases v <;> simp_all

theorem getStrOptD_isSome {o : ClipItem} {tag : List Char} (dflt : List Char)
    (h : strOrMissing (dictGet tag o.Opts) = true) :
    (getStrOptD o tag dflt).isSome = true := by
  unfold getStrOptD
  unfold strOrMissing at h
  cases hd : dictGet tag o.Opts with
  | none => rfl
  | some v => rw [hd] at h; cases v <;> simp_all

/-- Claim C3 amended: `UpdateContext` succeeds on every decoded object and
state, provided the state has an intact context with a recognized clef and
running-key offsets in the accidental range, a pitch-bearing object carries
a `Dur` option (and no dictionary-valued `Pos`/`Pos2`), a `Clef` object
carries string-valued options and an `Instrument` object an integer-parsable
`Trans`.  In particular malformed pitch tokens never fail: they decode to
the lenient default pitch. -/
theorem c3_amended (pc : PlayCtx) (o : ClipItem)
    (h1 : goodPlayState pc = true) (h2 : goodObjForUpdate o = true) :
    (UpdateContext pc o).isSome = true := by
  obtain ⟨ctx, hctx, hclef, hrk⟩ :
      ∃ ctx, pc.Context = some ctx ∧ (nwcClefCenterTones ctx.Clef).isSome = true ∧
        keySigInRange ctx.RunKey = true := by
    unfold goodPlayState at h1
    cases hc : pc.Context with
    | none => rw [hc] at h1; exact absurd h1 (by simp)
    | some ctx => rw [hc] at h1; simp at h1; exact ⟨ctx, rfl, h1.1, h1.2⟩
  unfold goodObjForUpdate at h2
  simp only [Bool.and_eq_true] at h2
  obtain ⟨⟨hnoteh, hclefh⟩, hinsth⟩ := h2
  unfold UpdateContext
  by_cases hnote : o.ObjType ∈ noteObjTypes
  · simp only [if_pos hnote] at hnoteh ⊢
    simp only [Bool.and_eq_true] at hnoteh
    obtain ⟨⟨hdur, hpos⟩, hpos2⟩ := hnoteh
    obtain ⟨n1, hn1⟩ := Option.isSome_iff_exists.mp (getArr_isSome hpos)
    obtain ⟨n2, hn2⟩ := Option.isSome_iff_exists.mp (getArr_isSome hpos2)
    obtain ⟨d, hd⟩ := Option.isSome_iff_exists.mp hdur
    obtain ⟨st, hst⟩ := Option.isSome_iff_exists.mp
      (foldlM_pitchStep_isSome hclef hrk
        (if n1 = [] then n2
         else if n2 ≠ [] then
           if dictGet (cs "Stem") o.Opts = some (.str (cs "Up")) then n2 ++ n1 else n1 ++ n2
         else n1) ⟨ctx.Ties, []⟩)
    simp only [ne_eq, ite_not] at hst
    simp [hn1, hn2, hctx, hst, hd]
  · simp only [if_neg hnote]
    by_cases hbar : o.ObjType = cs "Bar"
    · simp [hbar, hctx, Option.bind]
    · simp only [if_neg hbar]
      by_cases hcl : o.ObjType = cs "Clef"
      · simp only [if_pos hcl] at hclefh ⊢
        simp only [Bool.and_eq_true] at hclefh
        obtain ⟨hty, hoc⟩ := hclefh
        obtain ⟨cl, hcld⟩ :=
          Option.isSome_iff_exists.mp (@getStrOptD_isSome o (cs "Type") (cs "Treble") hty)
        obtain ⟨co, hcod⟩ :=
          Option.isSome_iff_exists.mp
            (@getStrOptD_isSome o (cs "OctaveShift") (cs "None") hoc)
        simp [hctx, hcld, hcod]
      · simp only [if_neg hcl]
        by_cases hkey : o.ObjType = cs "Key"
        · simp [hkey, hctx, Option.bind]
        · simp only [if_neg hkey]
          by_cases hinst : o.ObjType = cs "Instrument"
          · simp only [if_pos hinst] at hinsth ⊢
            obtain ⟨t, ht⟩ := Option.isSome_iff_exists.mp hinsth
            simp [hctx, ht, Option.bind]
          · simp only [if_neg hinst]
            by_cases hend : o.ObjType = cs "Ending" <;> simp [hend]

/-! ## Running key reset on Bar and Key -/

/-- Claim C5: immediately after `UpdateContext` processes a `Bar` or `Key`
object, `RunKey` equals `Key` pointwise on all seven note letters. -/
theorem c5_runkey_reset (pc : PlayCtx) (o : ClipItem) (pc2 : PlayCtx)
    (hty : o.ObjType = cs "Bar" ∨ o.ObjType = cs "Key")
    (h : UpdateContext pc o = some pc2) :
    ∃ ctx2, pc2.Context = some ctx2 ∧
      ∀ c ∈ nwcNoteNames, ctx2.RunKey.get c = ctx2.Key.get c := by
  unfold UpdateContext at h
  rcases hty with hty | hty <;> rw [hty] at h
  · rw [if_neg (by decide), if_pos rfl] at h
    cases hc : pc.Context with
    | none => rw [hc] at h; exact absurd h (by simp)
    | some ctx =>
      rw [hc] at h
      simp only [Option.some_bind] at h
      obtain rfl := (Option.some.inj h)
      exact ⟨_, rfl, fun c _ => rfl⟩
  · rw [if_neg (by decide), if_neg (by decide), if_neg (by decide), if_pos rfl] at h
    cases hc : pc.Context with
    | none => rw [hc] at h; exact absurd h (by simp)
    | some ctx =>
      rw [hc] at h
      simp only [Option.some_bind] at h
      obtain rfl := (Option.some.inj h)
      exact ⟨_, rfl, fun c _ => rfl⟩

/-- Witness for claim C5: a bare `Bar` object on the initial state. -/
theorem c5_witness :
    ∃ ctx2, initPlayContext.Context = some ctx2 ∧
      ∀ c ∈ nwcNoteNames, ctx2.RunKey.get c = ctx2.Key.get c :=
  c5_runkey_reset initPlayContext ⟨cs "Bar", []⟩ initPlayContext (Or.inl rfl) (by decide)

/-! ## First-ending snapshot and restore -/

/-- Claim C6: from a state holding a first-ending snapshot, an `Ending`
object whose `Endings` option does not contain key `1` restores the whole
context (clef, clef octave, transposition, key signature, running key,
active ties, slur) from the snapshot; no step overwrites the snapshot while
it is armed; and the armed flag survives every object except a `Bar` styled
`MasterRepeatOpen`. -/
theorem c6_first_ending_snapshot (pc : PlayCtx) (o : ClipItem) (pc2 : PlayCtx) (c1 : Ctx)
    (hseen : pc.SeenFirstEnding = true) (hsnap : pc.Ending1Context = some c1)
    (h : UpdateContext pc o = some pc2) :
    (o.ObjType = cs "Ending" → pyIn (cs "1") (endingsOf o) = false → pc2.Context = some c1) ∧
    pc2.Ending1Context = some c1 ∧
    ((o.ObjType = cs "Bar" →
        ¬ GetTaggedOpt o (cs "Style") (.str []) = .str (cs "MasterRepeatOpen")) →
      pc2.SeenFirstEnding = true) := by
  unfold UpdateContext at h
  by_cases hnote : o.ObjType ∈ noteObjTypes
  · rw [if_pos hnote] at h
    simp only [bind, Option.bind_eq_some] at h
    obtain ⟨n1, hn1, n2, hn2, ctx, hctx, st, hst, d, hd, hfin⟩ := h
    obtain rfl := Option.some.inj hfin
    refine ⟨?_, hsnap, fun _ => hseen⟩
    intro hEnd
    rw [hEnd] at hnote
    exact absurd hnote (by decide)
  · rw [if_neg hnote] at h
    by_cases hbar : o.ObjType = cs "Bar"
    · rw [if_pos hbar] at h
      simp only [bind, Option.bind_eq_some] at h
      obtain ⟨ctx, hctx, hfin⟩ := h
      obtain rfl := Option.some.inj hfin
      refine ⟨?_, hsnap, ?_⟩
      · intro hEnd; rw [hEnd] at hbar; exact absurd hbar (by decide)
      · intro hsty
        simp only [if_neg (hsty hbar)]
        exact hseen
    · rw [if_neg hbar] at h
      by_cases hcl : o.ObjType = cs "Clef"
      · rw [if_pos hcl] at h
        simp only [bind, Option.bind_eq_some] at h
        obtain ⟨ctx, hctx, cl, hcl2, co, hco, hfin⟩ := h
        obtain rfl := Option.some.inj hfin
        refine ⟨?_, hsnap, fun _ => hseen⟩
        intro hEnd; rw [hEnd] at hcl; exact absurd hcl (by decide)
      · rw [if_neg hcl] at h
        by_cases hkey : o.ObjType = cs "Key"
        · rw [if_pos hkey] at h
          simp only [bind, Option.bind_eq_some] at h
          obtain ⟨ctx, hctx, hfin⟩ := h
          obtain rfl := Option.some.inj hfin
          refine ⟨?_, hsnap, fun _ => hseen⟩
          intro hEnd; rw [hEnd] at hkey; exact absurd hkey (by decide)
        · rw [if_neg hkey] at h
          by_cases hinst : o.ObjType = cs "Instrument"
          · rw [if_pos hinst] at h
            simp only [bind, Option.bind_eq_some] at h
            obtain ⟨ctx, hctx, t, ht, hfin⟩ := h
            obtain rfl := Option.some.inj hfin
            refine ⟨?_, hsnap, fun _ => hseen⟩
            intro hEnd; rw [hEnd] at hinst; exact absurd hinst (by decide)
          · rw [if_neg hinst] at h
            by_cases hend : o.ObjType = cs "Ending"
            · rw [if_pos hend] at h
              obtain rfl := Option.some.inj h
              unfold SaveRestoreContext
              rw [if_pos hend]
              have hc1 : ¬ (pyIn (cs "1") (GetTaggedOpt o (cs "Endings") (.dict [])) = true ∧
                  pc.SeenFirstEnding = false) := by
                rintro ⟨-, hfalse⟩; rw [hseen] at hfalse; cases hfalse
              rw [if_neg hc1]
              by_cases hone : pyIn (cs "1") (GetTaggedOpt o (cs "Endings") (.dict [])) = true
              · have hc2 : ¬ (pc.SeenFirstEnding = true ∧
                    ¬ pyIn (cs "1") (GetTaggedOpt o (cs "Endings") (.dict [])) = true) := by
                  rintro ⟨-, hno⟩; exact hno hone
                rw [if_neg hc2]
                refine ⟨?_, hsnap, fun _ => hseen⟩
                intro _ hzero
                rw [show endingsOf o = GetTaggedOpt o (cs "Endings") (.dict []) from rfl] at hzero
                rw [hone] at hzero; cases hzero
              · rw [if_pos ⟨hseen, hone⟩]
                refine ⟨fun _ _ => ?_, hsnap, fun _ => hseen⟩
                exact hsnap
            · rw [if_neg hend] at h
              obtain rfl := Option.some.inj h
              refine ⟨?_, hsnap, fun _ => hseen⟩
              intro hEnd; exact absurd hEnd hend

/-- Witness for claim C6: an armed snapshot state meeting an `Ending` whose
`Endings` set is `{2}` (restore) — instantiated with the initial context as
the snapshot. -/
theorem c6_witness :
    ((⟨cs "Ending", [(cs "Endings", .dict [(cs "2", [])])]⟩ : ClipItem).ObjType = cs "Ending" →
      pyIn (cs "1") (endingsOf ⟨cs "Ending", [(cs "Endings", .dict [(cs "2", [])])]⟩) = false →
      (⟨some initCtx, true, some initCtx⟩ : PlayCtx).Context = some initCtx) ∧
    (⟨some initCtx, true, some initCtx⟩ : PlayCtx).Ending1Context = some initCtx ∧
    (((⟨cs "Ending", [(cs "Endings", .dict [(cs "2", [])])]⟩ : ClipItem).ObjType = cs "Bar" →
        ¬ GetTaggedOpt ⟨cs "Ending", [(cs "Endings", .dict [(cs "2", [])])]⟩ (cs "Style")
            (.str []) = .str (cs "MasterRepeatOpen")) →
      (⟨some initCtx, true, some initCtx⟩ : PlayCtx).SeenFirstEnding = true) :=
  c6_first_ending_snapshot ⟨some initCtx, true, some initCtx⟩
    ⟨cs "Ending", [(cs "Endings", .dict [(cs "2", [])])]⟩
    ⟨some initCtx, true, some initCtx⟩ initCtx rfl rfl (by decide)

/-- Witness for claim C3 amended: the initial state and the chord
`|Chord|Dur:4th|Pos:#3^,3x` (with one malformed pitch token `3x`). -/
theorem c3_witness :
    (UpdateContext initPlayContext
      ⟨cs "Chord", [(cs "Dur", .dict [(cs "4th", [])]),
                    (cs "Pos", .list [cs "#3^", cs "3x"])]⟩).isSome = true :=
  c3_amended initPlayContext
    ⟨cs "Chord", [(cs "Dur", .dict [(cs "4th", [])]),
                  (cs "Pos", .list [cs "#3^", cs "3x"])]⟩
    (by decide) (by decide)

/-! ## Round-trip: counterexample -/

/-- Claim C1 counterexample: the raw-classified value of `|Z|A:a"b` is
stored verbatim at parse time, but reconstruction escapes it (parsing never
unescapes raw values), so re-parsing the reconstruction stores a different
semantic value for tag `A`. -/
theorem c1_counterexample :
    (parseClipItem (cs "|Z|A:a\"b")).map ClipItem.Opts
      = some [(cs "A", .str (cs "a\"b"))] ∧
    (((parseClipItem (cs "|Z|A:a\"b")).bind ReconstructClipText).bind parseClipItem).map
        (fun it => (it.ObjType, dictGet (cs "A") it.Opts))
      = some (cs "Z", some (.str (cs "a\\\"b"))) ∧
    ¬ (PyVal.str (cs "a\\\"b") = PyVal.str (cs "a\"b")) := by
  decide

/-! ## Round-trip: helper lemmas -/

theorem takeWhile_all_append {α : Type} (p : α → Bool) {l : List α} (r : List α)
    (h : ∀ a ∈ l, p a = true) : (l ++ r).takeWhile p = l ++ r.takeWhile p := by
  induction l with
  | nil => rfl
  | cons a l ih =>
    have ha := h a (List.mem_cons_self a l)
    simp only [List.cons_append, List.takeWhile_cons_of_pos ha]
    rw [ih (fun x hx => h x (List.mem_cons_of_mem a hx))]

theorem dropWhile_all_append {α : Type} (p : α → Bool) {l : List α} (r : List α)
    (h : ∀ a ∈ l, p a = true) : (l ++ r).dropWhile p = r.dropWhile p := by
  induction l with
  | nil => rfl
  | cons a l ih =>
    have ha := h a (List.mem_cons_self a l)
    simp only [List.cons_append, List.dropWhile_cons_of_pos ha]
    exact ih (fun x hx => h x (List.mem_cons_of_mem a hx))

theorem takeWhile_eq_self_of_all {α : Type} (p : α → Bool) {l : List α}
    (h : ∀ a ∈ l, p a = true) : l.takeWhile p = l := by
  induction l with
  | nil => rfl
  | cons a l ih =>
    simp only [List.takeWhile_cons_of_pos (h a (List.mem_cons_self a l))]
    rw [ih (fun x hx => h x (List.mem_cons_of_mem a hx))]

theorem escCode_ne_newline (c : Char) : escCode c ≠ '\n' := by
  unfold escCode
  split_ifs with h1 h2 h3
  · decide
  · decide
  · decide
  · exact h2

theorem escape_no_newline (s : List Char) : ∀ c ∈ EscapeText s, ¬ c = '\n' := by
  induction s with
  | nil => intro c hc; cases hc
  | cons a s ih =>
    intro c hc
    by_cases h : isEscChar a = true
    · simp only [EscapeText, if_pos h, List.mem_cons] at hc
      rcases hc with rfl | rfl | hc
      · decide
      · exact escCode_ne_newline a
      · exact ih c hc
    · simp only [EscapeText, if_neg h, List.mem_cons] at hc
      rcases hc with rfl | hc
      · intro hh; subst hh; simp [isEscChar] at h
      · exact ih c hc

theorem escape_eq_self {s : List Char} (h : ∀ c ∈ s, isEscChar c = false) :
    EscapeText s = s := by
  induction s with
  | nil => rfl
  | cons a s ih =>
    have ha := h a (List.mem_cons_self a s)
    simp only [EscapeText, ha, Bool.false_eq_true, if_false]
    rw [ih (fun c hc => h c (List.mem_cons_of_mem a hc))]

theorem fieldKeeps_nil (p : Char) (prev : Option Char) : fieldKeeps p prev [] = true := rfl

theorem fieldKeeps_cons (p : Char) (prev : Option Char) (c : Char) (r : List Char) :
    fieldKeeps p prev (c :: r) =
      if c = p ∧ prev ≠ some '\\' then false else fieldKeeps p (some c) r := rfl

theorem splitUnescAux_cons (p : Char) (prev : Option Char) (c : Char) (rest : List Char) :
    splitUnescAux p prev (c :: rest) =
      if c = p ∧ prev ≠ some '\\' then [] :: splitUnescAux p (some ' ') rest
      else consHead c (splitUnescAux p (some c) rest) := rfl

theorem fieldKeeps_of_all_ne {p : Char} {f : List Char} (h : ∀ c ∈ f, ¬ c = p) :
    ∀ prev, fieldKeeps p prev f = true := by
  induction f with
  | nil => intro prev; rfl
  | cons c r ih =>
    intro prev
    rw [fieldKeeps_cons, if_neg (fun hc => h c (List.mem_cons_self c r) hc.1)]
    exact ih (fun x hx => h x (List.mem_cons_of_mem c hx)) (some c)

theorem lastCh_cons (prev : Option Char) (c : Char) (a : List Char) :
    lastCh prev (c :: a) = lastCh (some c) a := by
  cases a with
  | nil => simp [lastCh]
  | cons h t =>
    unfold lastCh
    rw [List.getLast?_cons_cons]
    cases hg : (h :: t).getLast? with
    | some x => rfl
    | none => exact absurd (List.getLast?_eq_none_iff.mp hg) (by simp)

theorem lastCh_of_ne_nil {prev : Option Char} {f : List Char} (h : ¬ f = []) :
    lastCh prev f = f.getLast? := by
  unfold lastCh
  cases hg : f.getLast? with
  | some c => rfl
  | none => exact absurd (List.getLast?_eq_none_iff.mp hg) h

theorem fieldKeeps_append_eq (p : Char) (a b : List Char) (prev : Option Char) :
    fieldKeeps p prev (a ++ b) = (fieldKeeps p prev a && fieldKeeps p (lastCh prev a) b) := by
  induction a generalizing prev with
  | nil => simp [lastCh, fieldKeeps_nil]
  | cons c a ih =>
    rw [lastCh_cons, List.cons_append, fieldKeeps_cons, fieldKeeps_cons]
    by_cases hc : c = p ∧ prev ≠ some '\\'
    · rw [if_pos hc, if_pos hc]; simp
    · rw [if_neg hc, if_neg hc]
      exact ih (some c)

theorem fieldKeeps_prev_irrel {p : Char} {f : List Char} {prev prev2 : Option Char}
    (h1 : ¬ prev = some '\\') (h2 : ¬ prev2 = some '\\') :
    fieldKeeps p prev f = fieldKeeps p prev2 f := by
  cases f with
  | nil => rfl
  | cons c r =>
    rw [fieldKeeps_cons, fieldKeeps_cons]
    have he : (c = p ∧ prev ≠ some '\\') ↔ (c = p ∧ prev2 ≠ some '\\') := by
      constructor <;> rintro ⟨hc, -⟩ <;> exact ⟨hc, by assumption⟩
    rw [if_congr he rfl rfl]

theorem escape_fieldKeeps (s : List Char) : ∀ prev, fieldKeeps '|' prev (EscapeText s) = true := by
  induction s with
  | nil => intro prev; rfl
  | cons a s ih =>
    intro prev
    by_cases h : isEscChar a = true
    · simp only [EscapeText, if_pos h]
      rw [fieldKeeps_cons, if_neg (fun hc => by cases hc.1)]
      rw [fieldKeeps_cons, if_neg (fun hc => hc.2 rfl)]
      exact ih (some (escCode a))
    · simp only [EscapeText, if_neg h]
      rw [fieldKeeps_cons, if_neg (fun hc => by rw [hc.1] at h; simp [isEscChar] at h)]
      exact ih (some a)

theorem splitUnescAux_single {p : Char} :
    ∀ {prev : Option Char} {f : List Char}, fieldKeeps p prev f = true →
      splitUnescAux p prev f = [f] := by
  intro prev f
  induction f generalizing prev with
  | nil => intro _; rfl
  | cons c r ih =>
    intro h
    rw [fieldKeeps_cons] at h
    rw [splitUnescAux_cons]
    by_cases hc : c = p ∧ prev ≠ some '\\'
    · rw [if_pos hc] at h; cases h
    · rw [if_neg hc] at h
      rw [if_neg hc, ih h]
      rfl

theorem splitUnescAux_append_delim {p : Char} :
    ∀ {prev : Option Char} {f : List Char} (T : List Char),
      fieldKeeps p prev f = true → ¬ lastCh prev f = some '\\' →
      splitUnescAux p prev (f ++ p :: T) = f :: splitUnescAux p (some ' ') T := by
  intro prev f
  induction f generalizing prev with
  | nil =>
    intro T _ hl
    have hprev : prev ≠ some '\\' := by simpa [lastCh] using hl
    rw [List.nil_append, splitUnescAux_cons, if_pos ⟨rfl, hprev⟩]
  | cons c r ih =>
    intro T hk hl
    rw [fieldKeeps_cons] at hk
    rw [lastCh_cons] at hl
    rw [List.cons_append, splitUnescAux_cons]
    by_cases hc : c = p ∧ prev ≠ some '\\'
    · rw [if_pos hc] at hk; cases hk
    · rw [if_neg hc] at hk
      rw [if_neg hc, ih T hk hl]
      rfl

theorem splitUnescAux_joinFields {p : Char} :
    ∀ (fs : List (List Char)) (prev : Option Char), ¬ fs = [] → ¬ prev = some '\\' →
      (∀ f ∈ fs, fieldKeeps p (some ' ') f = true) →
      (∀ f ∈ fs, ¬ f.getLast? = some '\\') →
      splitUnescAux p prev (joinFields p fs) = fs := by
  intro fs
  induction fs with
  | nil => intro prev h; exact absurd rfl h
  | cons f fs ih =>
    intro prev _ hprev hk hl
    have hkf : fieldKeeps p prev f = true := by
      rw [@fieldKeeps_prev_irrel p f prev (some ' ') hprev (by decide)]
      exact hk f (List.mem_cons_self f fs)
    cases fs with
    | nil =>
      simp only [joinFields]
      exact splitUnescAux_single hkf
    | cons g fs2 =>
      simp only [joinFields]
      rw [splitUnescAux_append_delim _ hkf ?_]
      · rw [ih (some ' ') (by simp) (by decide)
          (fun x hx => hk x (List.mem_cons_of_mem f hx))
          (fun x hx => hl x (List.mem_cons_of_mem f hx))]
      · by_cases hf : f = []
        · subst hf; simpa [lastCh] using hprev
        · rw [lastCh_of_ne_nil hf]
          exact hl f (List.mem_cons_self f (g :: fs2))

theorem rstrip_eq_self_of_last {s : List Char}
    (h : ∀ c, s.getLast? = some c → isPySpace c = false) : rstrip s = s := by
  rw [show rstrip s = s.rdropWhile isPySpace from rfl, List.rdropWhile_eq_self_iff]
  intro hl
  have hg := List.getLast?_eq_getLast s hl
  have := h (s.getLast hl) hg
  simp [this]

theorem last_not_space_of_rstrip {s : List Char} (h : rstrip s = s) :
    ∀ c, s.getLast? = some c → isPySpace c = false := by
  rw [show rstrip s = s.rdropWhile isPySpace from rfl, List.rdropWhile_eq_self_iff] at h
  intro c hc
  have hne : s ≠ [] := by intro he; subst he; cases hc
  have hg : s.getLast hne = c := (List.getLast_eq_iff_getLast_eq_some hne).mpr hc
  have := h hne
  rw [hg] at this
  simpa using this

theorem lstrip_eq_self_of_head {s : List Char}
    (h : ∀ c, s.head? = some c → isPySpace c = false) : lstrip s = s := by
  unfold lstrip
  cases s with
  | nil => rfl
  | cons c t => rw [List.dropWhile_cons_of_neg (by simp [h c rfl])]

theorem strip_eq_self {s : List Char}
    (h1 : ∀ c, s.head? = some c → isPySpace c = false)
    (h2 : ∀ c, s.getLast? = some c → isPySpace c = false) : strip s = s := by
  unfold strip
  rw [rstrip_eq_self_of_last h2]
  exact lstrip_eq_self_of_head h1

theorem map_eq_self_of_all {α : Type} {f : α → α} {l : List α} (h : ∀ a ∈ l, f a = a) :
    l.map f = l := by
  induction l with
  | nil => rfl
  | cons a l ih =>
    simp only [List.map_cons, h a (List.mem_cons_self a l)]
    rw [ih (fun x hx => h x (List.mem_cons_of_mem a hx))]

theorem intercalate_eq_joinFields (c : Char) (xs : List (List Char)) :
    List.intercalate [c] xs = joinFields c xs := by
  induction xs with
  | nil => rfl
  | cons x xs ih =>
    cases xs with
    | nil => simp [List.intercalate, joinFields]
    | cons y ys =>
      simp only [List.intercalate] at ih ⊢
      rw [List.intersperse_cons₂]
      simp only [List.flatten_cons]
      rw [ih]
      simp [joinFields]

theorem splitCommaWS_joinFields {xs : List (List Char)} (hne : ¬ xs = [])
    (h : ∀ x ∈ xs, eltSafe x = true) :
    splitCommaWS (joinFields ',' xs) = xs := by
  have hconj : ∀ x ∈ xs, fieldKeeps ',' (some ' ') x = true ∧
      ¬ x.getLast? = some '\\' ∧ lstrip x = x := by
    intro x hx
    have := h x hx
    simp only [eltSafe, Bool.and_eq_true, Bool.not_eq_true', beq_eq_false_iff_ne, ne_eq,
      beq_iff_eq] at this
    exact ⟨this.1.1, this.1.2, this.2⟩
  unfold splitCommaWS splitUnescaped
  rw [splitUnescAux_joinFields xs none hne (by simp)
    (fun f hf => (hconj f hf).1) (fun f hf => (hconj f hf).2.1)]
  cases xs with
  | nil => rfl
  | cons x xs2 =>
    simp only []
    rw [map_eq_self_of_all (fun a ha => (hconj a (List.mem_cons_of_mem x ha)).2.2)]

theorem dictGet_cons {α β : Type} [DecidableEq α] (k k2 : α) (v2 : β) (d : List (α × β)) :
    dictGet k ((k2, v2) :: d) = if k2 = k then some v2 else dictGet k d := rfl

theorem dictInsert_cons {α β : Type} [DecidableEq α] (k k2 : α) (v v2 : β) (d : List (α × β)) :
    dictInsert k v ((k2, v2) :: d) =
      if k2 = k then (k2, v) :: d else (k2, v2) :: dictInsert k v d := rfl

theorem dictInsert_append {α β : Type} [DecidableEq α] {k : α} (v : β) :
    ∀ {d : List (α × β)}, dictGet k d = none → dictInsert k v d = d ++ [(k, v)] := by
  intro d
  induction d with
  | nil => intro _; rfl
  | cons e d ih =>
    obtain ⟨k2, v2⟩ := e
    intro h
    rw [dictGet_cons] at h
    rw [dictInsert_cons]
    by_cases he : k2 = k
    · rw [if_pos he] at h; cases h
    · rw [if_neg he] at h
      rw [if_neg he, ih h]
      rfl

theorem dictGet_append_none {α β : Type} [DecidableEq α] {k : α} {d2 : List (α × β)} :
    ∀ {d1 : List (α × β)}, dictGet k d1 = none → dictGet k (d1 ++ d2) = dictGet k d2 := by
  intro d1
  induction d1 with
  | nil => intro _; rfl
  | cons e d ih =>
    obtain ⟨k2, v2⟩ := e
    intro h
    rw [dictGet_cons] at h
    rw [List.cons_append, dictGet_cons]
    by_cases he : k2 = k
    · rw [if_pos he] at h; cases h
    · rw [if_neg he] at h
      rw [if_neg he]
      exact ih h

theorem foldl_dictInsert_rebuild {α β : Type} [DecidableEq α] :
    ∀ (d pre : List (α × β)), (∀ kv ∈ d, dictGet kv.1 pre = none) →
      (d.map Prod.fst).Nodup →
      List.foldl (fun a e => dictInsert e.1 e.2 a) pre d = pre ++ d := by
  intro d
  induction d with
  | nil => intro pre _ _; simp
  | cons kv d ih =>
    intro pre hnone hnd
    simp only [List.foldl_cons]
    rw [dictInsert_append kv.2 (hnone kv (List.mem_cons_self kv d))]
    rw [ih (pre ++ [kv]) ?_ ?_]
    · simp
    · intro kv2 h2
      rw [dictGet_append_none (hnone kv2 (List.mem_cons_of_mem kv h2))]
      have hne : ¬ kv.1 = kv2.1 := by
        simp only [List.map_cons, List.nodup_cons] at hnd
        intro he
        exact hnd.1 (he ▸ List.mem_map_of_mem Prod.fst h2)
      show (if kv.1 = kv2.1 then some kv.2 else dictGet kv2.1 []) = none
      rw [if_neg hne]
      rfl
    · simp only [List.map_cons, List.nodup_cons] at hnd
      exact hnd.2

theorem tagChar_not_space {c : Char} (h : isTagChar c = true) : isPySpace c = false := by
  simp only [isPySpace, Bool.or_eq_false_iff]
  refine ⟨⟨⟨⟨⟨?_, ?_⟩, ?_⟩, ?_⟩, ?_⟩, ?_⟩ <;>
    · simp only [decide_eq_false_iff_not]
      intro hc
      subst hc
      exact absurd h (by decide)

theorem tagChar_ne_pipe {c : Char} (h : isTagChar c = true) : ¬ c = '|' := by
  intro hc; subst hc; exact absurd h (by decide)

theorem tagMatch_emit {k : List Char} (body : List Char) (hk : tagKey k = true) :
    tagMatch (k ++ ':' :: body) = some (k, body.takeWhile (· ≠ '\n')) := by
  have hkk : ¬ k.isEmpty = true ∧ ∀ c ∈ k, isTagChar c = true := by
    simpa [tagKey, Bool.and_eq_true] using hk
  have hne : k ≠ [] := by
    intro he; subst he; exact hkk.1 rfl
  unfold tagMatch
  rw [takeWhile_all_append isTagChar (':' :: body) hkk.2,
    dropWhile_all_append isTagChar (':' :: body) hkk.2]
  rw [List.takeWhile_cons_of_neg (by decide), List.dropWhile_cons_of_neg (by decide)]
  rw [List.append_nil]
  cases k with
  | nil => exact absurd rfl hne
  | cons c kr => rfl

theorem addOpt_of_tagMatch {it : ClipItem} {v tag rest : List Char}
    (h : tagMatch v = some (tag, rest)) :
    addOpt it v =
      { it with Opts := dictInsert tag (parseOptData it.ObjType tag (strip rest)) it.Opts } := by
  unfold addOpt
  rw [h]

theorem quoteStrip_wrap (m : List Char) (h : ∀ c ∈ m, ¬ c = '\n') :
    quoteStrip ('"' :: (m ++ ['"'])) = some m := by
  unfold quoteStrip
  rw [show (match ('"' :: (m ++ ['"'])) with
      | '"' :: rest =>
        if rest.getLast? = some '"' ∧ '\n' ∉ rest.dropLast then some rest.dropLast else none
      | _ => none) =
    (if (m ++ ['"']).getLast? = some '"' ∧ '\n' ∉ (m ++ ['"']).dropLast
     then some (m ++ ['"']).dropLast else none) from rfl]
  rw [if_pos ⟨List.getLast?_concat m, by
    rw [List.dropLast_concat]
    intro hm
    exact h '\n' hm rfl⟩]
  rw [List.dropLast_concat]

theorem parseOptData_text {T k optdata m : List Char} (hcl : NWC2ClassifyOptTag T k = .text)
    (hq : quoteStrip optdata = some m) :
    parseOptData T k optdata = .str (UnescapeText m) := by
  unfold parseOptData
  rw [hcl, hq]

theorem parseOptData_raw {T k optdata : List Char} (hcl : NWC2ClassifyOptTag T k = .raw) :
    parseOptData T k optdata = .str optdata := by
  unfold parseOptData
  rw [hcl]

theorem parseOptData_list {T k optdata : List Char} (hcl : NWC2ClassifyOptTag T k = .list) :
    parseOptData T k optdata = .list (splitCommaWS optdata) := by
  unfold parseOptData
  rw [hcl]

theorem parseOptData_assoc {T k optdata : List Char} (hcl : NWC2ClassifyOptTag T k = .assoc) :
    parseOptData T k optdata =
      .dict ((splitCommaWS optdata).foldl
        (fun d e => dictInsert (assocSplit e).1 (assocSplit e).2 d) []) := by
  unfold parseOptData
  rw [hcl]

/-- Reconstructing then re-reading one stored option restores it exactly. -/
theorem addOpt_emitOptG {T : List Char} (it : ClipItem) (e : List Char × PyVal)
    (hT : it.ObjType = T) (h : goodOpt T e = true) :
    addOpt it (emitOptG T e) = { it with Opts := dictInsert e.1 e.2 it.Opts } := by
  obtain ⟨k, v⟩ := e
  cases v with
  | str s =>
    cases s with
    | nil =>
      simp only [goodOpt, Bool.and_eq_true, Option.isNone_iff_eq_none] at h
      show addOpt it k = _
      unfold addOpt
      rw [h.2]
    | cons c s2 =>
      simp only [goodOpt, Bool.and_eq_true] at h
      obtain ⟨hkey, hcl⟩ := h
      cases hclassify : NWC2ClassifyOptTag T k with
      | list => rw [hclassify] at hcl; simp at hcl
      | assoc => rw [hclassify] at hcl; simp at hcl
      | text =>
        have hfield : emitOptG T (k, .str (c :: s2)) =
            k ++ ':' :: ('"' :: (EscapeText (c :: s2) ++ ['"'])) := by
          simp only [emitOptG]
          rw [if_pos hclassify]
        have hbody : ('"' :: (EscapeText (c :: s2) ++ ['"'])).takeWhile (· ≠ '\n')
            = '"' :: (EscapeText (c :: s2) ++ ['"']) := by
          apply takeWhile_eq_self_of_all
          intro a ha
          simp only [decide_eq_true_eq]
          rcases List.mem_cons.mp ha with rfl | ha2
          · decide
          · rcases List.mem_append.mp ha2 with ha3 | ha4
            · exact escape_no_newline _ a ha3
            · simp only [List.mem_singleton] at ha4
              subst ha4; decide
        have hstrip : strip ('"' :: (EscapeText (c :: s2) ++ ['"']))
            = '"' :: (EscapeText (c :: s2) ++ ['"']) := by
          apply strip_eq_self
          · intro x hx
            obtain rfl := Option.some.inj hx
            decide
          · intro x hx
            rw [show ('"' :: (EscapeText (c :: s2) ++ ['"']))
                = ('"' :: EscapeText (c :: s2)) ++ ['"'] from by simp] at hx
            rw [List.getLast?_concat] at hx
            obtain rfl := Option.some.inj hx.symm
            decide
        rw [hclassify] at hcl
        have hctrl : ∀ x ∈ (c :: s2), ¬(x = '\r' ∨ x = '\n' ∨ x = '\t') := by
          intro x hx
          have hx2 := List.all_eq_true.mp hcl x hx
          simp only [Bool.not_eq_true', Bool.or_eq_false_iff,
            decide_eq_false_iff_not] at hx2
          tauto
        rw [hfield, addOpt_of_tagMatch ((tagMatch_emit _ hkey).trans (by rw [hbody])), hT,
          hstrip, parseOptData_text hclassify (quoteStrip_wrap _ (escape_no_newline (c :: s2))),
          unescape_escape_of_ctrlfree (c :: s2) hctrl]
      | raw =>
        rw [hclassify] at hcl
        simp only [Bool.and_eq_true, List.all_eq_true, Bool.not_eq_true',
          beq_iff_eq] at hcl
        obtain ⟨⟨hnoesc, hrs⟩, hls⟩ := hcl
        have hesc : EscapeText (c :: s2) = c :: s2 :=
          escape_eq_self (fun x hx => by
            have := hnoesc x hx
            simpa using this)
        have hfield : emitOptG T (k, .str (c :: s2)) = k ++ ':' :: (c :: s2) := by
          simp only [emitOptG]
          rw [if_neg (by rw [hclassify]; intro hh; cases hh), hesc]
        have hnonl : ∀ a ∈ (c :: s2), ¬ a = '\n' := by
          intro a ha hn
          subst hn
          have := hnoesc '\n' ha
          simp [isEscChar] at this
        have hbody : (c :: s2).takeWhile (· ≠ '\n') = c :: s2 := by
          apply takeWhile_eq_self_of_all
          intro a ha
          simp only [decide_eq_true_eq]
          exact hnonl a ha
        have hstrip : strip (c :: s2) = c :: s2 := by
          unfold strip
          rw [show rstrip (c :: s2) = c :: s2 from hrs, hls]
        rw [hfield, addOpt_of_tagMatch ((tagMatch_emit _ hkey).trans (by rw [hbody])), hT,
          hstrip, parseOptData_raw hclassify]
  | list xs =>
    simp only [goodOpt, Bool.and_eq_true, decide_eq_true_eq, List.all_eq_true] at h
    obtain ⟨⟨⟨⟨hkey, hcl⟩, hxs⟩, helts⟩, hpay⟩ := h
    simp only [payloadSafe, Bool.and_eq_true, List.all_eq_true, Bool.not_eq_true',
      beq_eq_false_iff_ne, ne_eq, beq_iff_eq] at hpay
    obtain ⟨⟨⟨⟨hpnl, hplast⟩, hprs⟩, hpls⟩, hpkeep⟩ := hpay
    have hbody : (List.intercalate [','] xs).takeWhile (· ≠ '\n')
        = List.intercalate [','] xs := by
      apply takeWhile_eq_self_of_all
      intro a ha
      have := hpnl a ha
      simpa using this
    have hstrip : strip (List.intercalate [','] xs) = List.intercalate [','] xs := by
      unfold strip
      rw [hprs, hpls]
    have hxs2 : ¬ xs = [] := by
      intro he; subst he; simp at hxs
    show addOpt it (k ++ ':' :: List.intercalate [','] xs) = _
    rw [addOpt_of_tagMatch ((tagMatch_emit _ hkey).trans (by rw [hbody])), hT, hstrip,
      parseOptData_list hcl, intercalate_eq_joinFields, splitCommaWS_joinFields hxs2 helts]
  | dict d =>
    simp only [goodOpt, Bool.and_eq_true, decide_eq_true_eq, List.all_eq_true] at h
    obtain ⟨⟨⟨⟨⟨hkey, hcl⟩, hd⟩, hnd⟩, hents⟩, hpay⟩ := h
    simp only [payloadSafe, Bool.and_eq_true, List.all_eq_true, Bool.not_eq_true',
      beq_eq_false_iff_ne, ne_eq, beq_iff_eq] at hpay
    obtain ⟨⟨⟨⟨hpnl, hplast⟩, hprs⟩, hpls⟩, hpkeep⟩ := hpay
    have hbody : (List.intercalate [','] (d.map emitAssocEntry)).takeWhile (· ≠ '\n')
        = List.intercalate [','] (d.map emitAssocEntry) := by
      apply takeWhile_eq_self_of_all
      intro a ha
      have := hpnl a ha
      simpa using this
    have hstrip : strip (List.intercalate [','] (d.map emitAssocEntry))
        = List.intercalate [','] (d.map emitAssocEntry) := by
      unfold strip
      rw [hprs, hpls]
    have hents2 : ∀ kv ∈ d, eltSafe (emitAssocEntry kv) = true ∧
        assocSplit (emitAssocEntry kv) = kv := by
      intro kv hkv
      have := hents kv hkv
      simp only [Bool.and_eq_true, beq_iff_eq] at this
      exact this
    have hmap2 : ¬ (d.map emitAssocEntry) = [] := by
      intro he
      rw [List.map_eq_nil_iff] at he
      subst he; simp at hd
    have hmelts : ∀ x ∈ d.map emitAssocEntry, eltSafe x = true := by
      intro x hx
      obtain ⟨kv, hkv, rfl⟩ := List.mem_map.mp hx
      exact (hents2 kv hkv).1
    show addOpt it (k ++ ':' :: List.intercalate [','] (d.map emitAssocEntry)) = _
    rw [addOpt_of_tagMatch ((tagMatch_emit _ hkey).trans (by rw [hbody])), hT, hstrip,
      parseOptData_assoc hcl, intercalate_eq_joinFields, splitCommaWS_joinFields hmap2 hmelts,
      List.foldl_map, List.foldl_ext _ _ [] (fun a kv hkv => by rw [(hents2 kv hkv).2]),
      foldl_dictInsert_rebuild d [] (fun kv _ => rfl) hnd, List.nil_append]

theorem emitOpt_eq_emitOptG {T : List Char} {e : List Char × PyVal} (h : goodOpt T e = true) :
    emitOpt T e = some (emitOptG T e) := by
  obtain ⟨k, v⟩ := e
  cases v with
  | str s =>
    cases s with
    | nil => rfl
    | cons c s2 =>
      by_cases hcl : NWC2ClassifyOptTag T k = .text
      · simp [emitOpt, emitOptVal, emitOptG, hcl]
      · simp [emitOpt, emitOptVal, emitOptG, hcl]
  | list xs =>
    have hcl : NWC2ClassifyOptTag T k = .list := by
      simp only [goodOpt, Bool.and_eq_true, decide_eq_true_eq] at h
      exact h.1.1.1.2
    simp [emitOpt, emitOptVal, emitOptG, hcl]
  | dict d =>
    have hcl : NWC2ClassifyOptTag T k = .assoc := by
      simp only [goodOpt, Bool.and_eq_true, decide_eq_true_eq] at h
      exact h.1.1.1.1.2
    simp [emitOpt, emitOptVal, emitOptG, hcl]

theorem reconstruct_fold {T : List Char} (opts : List (List Char × PyVal))
    (h : ∀ e ∈ opts, goodOpt T e = true) :
    ∀ acc : List Char,
      List.foldlM (fun acc e => (emitOpt T e).map (fun f => acc ++ '|' :: f)) acc opts
        = some (acc ++ (opts.map (fun e => '|' :: emitOptG T e)).flatten) := by
  induction opts with
  | nil => intro acc; simp [List.foldlM]
  | cons e opts ih =>
    intro acc
    simp only [List.foldlM_cons, emitOpt_eq_emitOptG (h e (List.mem_cons_self e opts)),
      Option.map_some', Option.some_bind, bind]
    rw [ih (fun x hx => h x (List.mem_cons_of_mem e hx)) (acc ++ '|' :: emitOptG T e)]
    simp [List.append_assoc]

theorem join_map_pipe (T : List Char) (fs : List (List Char)) :
    T ++ (fs.map (fun f => '|' :: f)).flatten = joinFields '|' (T :: fs) := by
  induction fs generalizing T with
  | nil => simp [joinFields]
  | cons f fs ih =>
    simp only [List.map_cons, List.flatten_cons]
    rw [show joinFields '|' (T :: f :: fs) = T ++ '|' :: joinFields '|' (f :: fs) from rfl]
    rw [← ih f]
    simp

theorem reconstruct_eq {item : ClipItem} (h : ∀ e ∈ item.Opts, goodOpt item.ObjType e = true) :
    ReconstructClipText item =
      some ('|' :: joinFields '|' (item.ObjType :: item.Opts.map (emitOptG item.ObjType))) := by
  unfold ReconstructClipText
  rw [reconstruct_fold item.Opts h ('|' :: item.ObjType)]
  rw [← join_map_pipe]
  simp only [List.map_map, List.cons_append]
  rfl

theorem foldl_addOpt_emit (T : List Char) (opts : List (List Char × PyVal))
    (h : ∀ e ∈ opts, goodOpt T e = true) :
    ∀ acc : List (List Char × PyVal),
      List.foldl addOpt ⟨T, acc⟩ (opts.map (emitOptG T)) =
        ⟨T, List.foldl (fun a e => dictInsert e.1 e.2 a) acc opts⟩ := by
  induction opts with
  | nil => intro acc; rfl
  | cons e opts ih =>
    intro acc
    simp only [List.map_cons, List.foldl_cons]
    rw [addOpt_emitOptG ⟨T, acc⟩ e rfl (h e (List.mem_cons_self e opts))]
    exact ih (fun x hx => h x (List.mem_cons_of_mem e hx)) (dictInsert e.1 e.2 acc)

theorem getLast?_append_cons2 (k : List Char) (c : Char) (rest : List Char) :
    (k ++ c :: rest).getLast? = (c :: rest).getLast? := by
  rw [List.getLast?_append]
  cases hg : (c :: rest).getLast? with
  | some x => rfl
  | none => exact absurd (List.getLast?_eq_none_iff.mp hg) (by simp)

theorem tagged_field_facts {k rest : List Char} (hkey : tagKey k = true)
    (h1 : fieldKeeps '|' (some ':') rest = true)
    (h2 : ¬ rest.getLast? = some '\\')
    (h3 : ∀ c, rest.getLast? = some c → isPySpace c = false) :
    fieldKeeps '|' (some ' ') (k ++ ':' :: rest) = true ∧
    ¬ (k ++ ':' :: rest).getLast? = some '\\' ∧
    (∀ c, (k ++ ':' :: rest).getLast? = some c → isPySpace c = false) := by
  have hall : ∀ c ∈ k, isTagChar c = true := by
    have := hkey
    simp only [tagKey, Bool.and_eq_true, List.all_eq_true] at this
    exact this.2
  have hne : k ≠ [] := by
    intro he; subst he
    simp [tagKey] at hkey
  refine ⟨?_, ?_, ?_⟩
  · rw [fieldKeeps_append_eq]
    rw [Bool.and_eq_true]
    refine ⟨fieldKeeps_of_all_ne (fun c hc => tagChar_ne_pipe (hall c hc)) _, ?_⟩
    rw [fieldKeeps_cons, if_neg (fun hh => absurd hh.1 (by decide))]
    have hprev : ¬ lastCh (some ' ') k = some '\\' := by
      rw [lastCh_of_ne_nil hne]
      intro hh
      have hmem := List.mem_of_getLast?_eq_some hh
      have := hall '\\' hmem
      exact absurd this (by decide)
    exact h1
  · rw [getLast?_append_cons2]
    cases rest with
    | nil =>
      rw [List.getLast?_singleton]
      intro hh
      exact absurd (Option.some.inj hh) (by decide)
    | cons r rs =>
      rw [List.getLast?_cons_cons]
      exact h2
  · intro c hc
    rw [getLast?_append_cons2] at hc
    cases rest with
    | nil =>
      rw [List.getLast?_singleton] at hc
      obtain rfl := Option.some.inj hc
      decide
    | cons r rs =>
      rw [List.getLast?_cons_cons] at hc
      exact h3 c hc

theorem emitOptG_safe {T : List Char} {e : List Char × PyVal} (h : goodOpt T e = true) :
    fieldKeeps '|' (some ' ') (emitOptG T e) = true ∧
    ¬ (emitOptG T e).getLast? = some '\\' ∧
    (∀ c, (emitOptG T e).getLast? = some c → isPySpace c = false) := by
  obtain ⟨k, v⟩ := e
  cases v with
  | str s =>
    cases s with
    | nil =>
      simp only [goodOpt, Bool.and_eq_true] at h
      obtain ⟨hfs, -⟩ := h
      simp only [fieldSafe, Bool.and_eq_true, Bool.not_eq_true', beq_eq_false_iff_ne,
        ne_eq, beq_iff_eq] at hfs
      exact ⟨hfs.1.1, hfs.1.2, last_not_space_of_rstrip hfs.2⟩
    | cons c s2 =>
      simp only [goodOpt, Bool.and_eq_true] at h
      obtain ⟨hkey, hcl⟩ := h
      cases hclassify : NWC2ClassifyOptTag T k with
      | list => rw [hclassify] at hcl; simp at hcl
      | assoc => rw [hclassify] at hcl; simp at hcl
      | text =>
        have hfield : emitOptG T (k, .str (c :: s2)) =
            k ++ ':' :: ('"' :: (EscapeText (c :: s2) ++ ['"'])) := by
          simp only [emitOptG]; rw [if_pos hclassify]
        rw [hfield]
        apply tagged_field_facts hkey
        · rw [fieldKeeps_cons, if_neg (fun hh => absurd hh.1 (by decide)),
            fieldKeeps_append_eq]
          rw [Bool.and_eq_true]
          refine ⟨escape_fieldKeeps _ _, ?_⟩
          exact fieldKeeps_of_all_ne
            (fun x hx => by
              simp only [List.mem_singleton] at hx
              subst hx; decide) _
        · rw [show ('"' :: (EscapeText (c :: s2) ++ ['"']))
              = ('"' :: EscapeText (c :: s2)) ++ ['"'] from by simp,
            List.getLast?_concat]
          intro hh
          exact absurd (Option.some.inj hh) (by decide)
        · intro x hx
          rw [show ('"' :: (EscapeText (c :: s2) ++ ['"']))
              = ('"' :: EscapeText (c :: s2)) ++ ['"'] from by simp,
            List.getLast?_concat] at hx
          obtain rfl := Option.some.inj hx
          decide
      | raw =>
        rw [hclassify] at hcl
        simp only [Bool.and_eq_true, List.all_eq_true, Bool.not_eq_true',
          beq_iff_eq] at hcl
        obtain ⟨⟨hnoesc, hrs⟩, hls⟩ := hcl
        have hesc : EscapeText (c :: s2) = c :: s2 :=
          escape_eq_self (fun x hx => by
            have := hnoesc x hx
            simpa using this)
        have hfield : emitOptG T (k, .str (c :: s2)) = k ++ ':' :: (c :: s2) := by
          simp only [emitOptG]
          rw [if_neg (by rw [hclassify]; intro hh; cases hh), hesc]
        rw [hfield]
        apply tagged_field_facts hkey
        · apply fieldKeeps_of_all_ne
          intro x hx hxp
          subst hxp
          have := hnoesc '|' hx
          simp [isEscChar] at this
        · intro hh
          have hmem := List.mem_of_getLast?_eq_some hh
          have := hnoesc '\\' hmem
          simp [isEscChar] at this
        · exact last_not_space_of_rstrip hrs
  | list xs =>
    simp only [goodOpt, Bool.and_eq_true, decide_eq_true_eq, List.all_eq_true] at h
    obtain ⟨⟨⟨⟨hkey, hcl⟩, hxs⟩, helts⟩, hpay⟩ := h
    simp only [payloadSafe, Bool.and_eq_true, List.all_eq_true, Bool.not_eq_true',
      beq_eq_false_iff_ne, ne_eq, beq_iff_eq] at hpay
    obtain ⟨⟨⟨⟨hpnl, hplast⟩, hprs⟩, hpls⟩, hpkeep⟩ := hpay
    show fieldKeeps '|' (some ' ') (k ++ ':' :: List.intercalate [','] xs) = true ∧ _
    apply tagged_field_facts hkey
    · rw [@fieldKeeps_prev_irrel '|' (List.intercalate [','] xs) (some ':') (some ' ')
        (by decide) (by decide)]
      exact hpkeep
    · exact hplast
    · exact last_not_space_of_rstrip hprs
  | dict d =>
    simp only [goodOpt, Bool.and_eq_true, decide_eq_true_eq, List.all_eq_true] at h
    obtain ⟨⟨⟨⟨⟨hkey, hcl⟩, hd⟩, hnd⟩, hents⟩, hpay⟩ := h
    simp only [payloadSafe, Bool.and_eq_true, List.all_eq_true, Bool.not_eq_true',
      beq_eq_false_iff_ne, ne_eq, beq_iff_eq] at hpay
    obtain ⟨⟨⟨⟨hpnl, hplast⟩, hprs⟩, hpls⟩, hpkeep⟩ := hpay
    show fieldKeeps '|' (some ' ')
        (k ++ ':' :: List.intercalate [','] (d.map emitAssocEntry)) = true ∧ _
    apply tagged_field_facts hkey
    · rw [@fieldKeeps_prev_irrel '|' (List.intercalate [','] (d.map emitAssocEntry))
        (some ':') (some ' ') (by decide) (by decide)]
      exact hpkeep
    · exact hplast
    · exact last_not_space_of_rstrip hprs

theorem getLast?_joinFields_nonspace {p : Char} (hp : isPySpace p = false) :
    ∀ (fs : List (List Char)),
      (∀ f ∈ fs, ∀ c, f.getLast? = some c → isPySpace c = false) →
      ∀ c, (joinFields p fs).getLast? = some c → isPySpace c = false := by
  intro fs
  induction fs with
  | nil => intro _ c hc; cases hc
  | cons f fs ih =>
    intro h c hc
    cases fs with
    | nil => exact h f (List.mem_cons_self f []) c hc
    | cons g fs2 =>
      rw [show joinFields p (f :: g :: fs2) = f ++ p :: joinFields p (g :: fs2) from rfl,
        getLast?_append_cons2] at hc
      cases hJ : joinFields p (g :: fs2) with
      | nil =>
        rw [hJ, List.getLast?_singleton] at hc
        obtain rfl := Option.some.inj hc
        exact hp
      | cons j0 jt =>
        rw [hJ, List.getLast?_cons_cons] at hc
        refine ih (fun x hx => h x (List.mem_cons_of_mem f hx)) c ?_
        rw [hJ]
        exact hc

theorem rstrip_reconstruct {T : List Char} {fs : List (List Char)}
    (hT : ∀ c, T.getLast? = some c → isPySpace c = false)
    (hfs : ∀ f ∈ fs, ∀ c, f.getLast? = some c → isPySpace c = false) :
    rstrip ('|' :: joinFields '|' (T :: fs)) = '|' :: joinFields '|' (T :: fs) := by
  apply rstrip_eq_self_of_last
  intro c hc
  cases hJ : joinFields '|' (T :: fs) with
  | nil =>
    rw [hJ, List.getLast?_singleton] at hc
    obtain rfl := Option.some.inj hc
    decide
  | cons j0 jt =>
    rw [hJ, List.getLast?_cons_cons] at hc
    refine @getLast?_joinFields_nonspace '|' (by decide) (T :: fs) ?_ c ?_
    · intro f hf
      rcases List.mem_cons.mp hf with rfl | hf2
      · exact hT
      · exact hfs f hf2
    · rw [hJ]
      exact hc

/-- Claim C1 amended: re-parsing the reconstruction of a parsed clip item
yields the identical item — same object type and same tag-to-value mapping,
quoting of text values notwithstanding — provided the item is `goodItem`:
text-classified values may hold anything except CR, LF and TAB (escaping
and quoting protect every other character, while an escaped CR, LF or TAB
unescapes to the literal letter `r`, `n` or `t`), raw values must avoid the
escaped character set, flag keys of associative entries must not re-parse
as key=value, and keys, list and associative elements must be free of
unescaped delimiters, trailing backslashes and sensitive whitespace.  Raw
values containing escapable characters (see the counterexample) break the
round trip because reconstruction escapes what parsing never unescapes. -/
theorem c1_amended_roundtrip (line : List Char) (item : ClipItem) (r : List Char)
    (_hparse : parseClipItem line = some item) (hg : goodItem item = true)
    (hrec : ReconstructClipText item = some r) :
    parseClipItem r = some item := by
  simp only [goodItem, Bool.and_eq_true, decide_eq_true_eq, List.all_eq_true] at hg
  obtain ⟨⟨hobj, hnd⟩, hopts⟩ := hg
  rw [reconstruct_eq hopts] at hrec
  obtain rfl := Option.some.inj hrec.symm
  simp only [fieldSafe, Bool.and_eq_true, Bool.not_eq_true', beq_eq_false_iff_ne,
    ne_eq, beq_iff_eq] at hobj
  obtain ⟨⟨hobjk, hobjl⟩, hobjr⟩ := hobj
  unfold parseClipItem
  rw [rstrip_reconstruct (last_not_space_of_rstrip hobjr)
    (fun f hf => by
      obtain ⟨e, he, rfl⟩ := List.mem_map.mp hf
      exact (emitOptG_safe (hopts e he)).2.2)]
  unfold splitUnescaped
  rw [splitUnescAux_cons, if_pos ⟨rfl, by decide⟩]
  rw [splitUnescAux_joinFields (item.ObjType :: item.Opts.map (emitOptG item.ObjType))
    (some ' ') (by simp) (by decide)
    (fun f hf => by
      rcases List.mem_cons.mp hf with rfl | hf2
      · exact hobjk
      · obtain ⟨e, he, rfl⟩ := List.mem_map.mp hf2
        exact (emitOptG_safe (hopts e he)).1)
    (fun f hf => by
      rcases List.mem_cons.mp hf with rfl | hf2
      · exact hobjl
      · obtain ⟨e, he, rfl⟩ := List.mem_map.mp hf2
        exact (emitOptG_safe (hopts e he)).2.1)]
  show some (List.foldl addOpt ⟨item.ObjType, []⟩ (item.Opts.map (emitOptG item.ObjType)))
    = some item
  rw [foldl_addOpt_emit item.ObjType item.Opts hopts [],
    foldl_dictInsert_rebuild item.Opts [] (fun kv _ => rfl) hnd, List.nil_append]

/-- Witness for claim C1 amended: the line `|Note|Dur:Quarter|Pos:3`, whose
reconstruction is byte-identical and re-parses to the same item. -/
theorem c1_witness :
    parseClipItem (cs "|Note|Dur:Quarter|Pos:3") =
      some ⟨cs "Note", [(cs "Dur", .dict [(cs "Quarter", [])]),
                        (cs "Pos", .str (cs "3"))]⟩ :=
  c1_amended_roundtrip (cs "|Note|Dur:Quarter|Pos:3")
    ⟨cs "Note", [(cs "Dur", .dict [(cs "Quarter", [])]), (cs "Pos", .str (cs "3"))]⟩
    (cs "|Note|Dur:Quarter|Pos:3") (by decide) (by decide) (by decide)

end NwcTxt
